import Mathlib

/-!
# Small-range discrete-log solvers: a shallow embedding

This file embeds the solver algorithms of a small-range discrete-logarithm
library (BSGS, batched BSGS, truncated batched BSGS, naive lookups, and the
Bernstein-Lange 2012 pseudorandom-walk solver) and proves functional
correctness, error-handling and invariant properties about them.

Modelling choices, all reflecting the group contract the code relies on:

* The code works in the Ristretto255 group, a cyclic group of prime order
  `P = 2^252 + 27742317777372353535851937790883648493` generated by the fixed
  basepoint `g`.  We represent a group element by its discrete logarithm
  base `g`, i.e. by an element of `ZMod P`; the exponent of `g` itself is `1`,
  the identity element is `0`, point addition is addition in `ZMod P`, and
  scalar multiplication `x · g` is the natural cast of `x` into `ZMod P`.
  Scalars (integers mod the group order) are likewise `ZMod P`.
* The canonical 32-byte compressed encoding is modelled by an abstract
  injective function `compress : ZMod P → K`; the 8-byte truncation of an
  encoding (`truncate_key`) and the last-8-bytes view used by BL12
  (`get_last_point_bytes`) are modelled by abstract functions `trunc : K → ℕ`
  and `lastU64 : K → ℕ` with no assumed properties.
* `HashMap` tables are modelled by association lists with
  replace-on-duplicate insertion (`alInsert`) and first-match lookup
  (`alLookup`), which matches `std::collections::HashMap` up to iteration
  order.
* Rust `u64`/`u16` values are modelled by `ℕ`; where the source performs a
  narrowing cast (`as u16`) the model takes the value mod `2^16`.  All
  `u64` arithmetic performed by the solvers is proved (or bounded by
  construction) to stay below `2^64`, so no further wrap-around modelling
  is needed.
* Fallible operations return `Option` (`none` = the error / panic branch).
  Loops that the source bounds by a counter are modelled with exactly that
  counter; the unbounded retry loop of the BL12 solver takes an explicit
  fuel argument (`none` = has not returned within that many restarts).
* Randomness (`OsRng`) is modelled by an arbitrary stream `rng : ℕ → ℕ` of
  draws; a draw of `bits` random bits takes the next stream element mod
  `2^bits`, which produces exactly the values the byte-level sampler
  `generate_random_scalar` can produce (proved in `generateRandomScalar_ok`).
-/

/-- Order of the Ristretto255 group (a prime; primality is never needed,
only that `P` is odd and larger than `2^64`). -/
def P : ℕ := 2 ^ 252 + 27742317777372353535851937790883648493

theorem P_pos : 0 < P := by decide

instance : NeZero P := ⟨by decide⟩

theorem two_pow_64_lt_P : 2 ^ 64 < P := by decide

theorem P_odd : P % 2 = 1 := by decide

/-- A Ristretto group element, represented by its discrete log base the
generator `g` (so `g` itself is `1` and the identity is `0`). -/
abbrev Pt : Type := ZMod P

/-- Scalar multiplication of the fixed generator `g` by a scalar: in the
discrete-log representation the resulting element *is* the scalar. -/
def mulG (a : ZMod P) : Pt := a

theorem Pt.natCast_inj {a b : ℕ} (ha : a < P) (hb : b < P) :
    (a : Pt) = (b : Pt) ↔ a = b := by
  constructor
  · intro h
    have := congrArg ZMod.val h
    rwa [ZMod.val_cast_of_lt ha, ZMod.val_cast_of_lt hb] at this
  · intro h; rw [h]

theorem Pt.natCast_eq_zero_iff {a : ℕ} (ha : a < P) : (a : Pt) = 0 ↔ a = 0 := by
  have h0 : ((0 : ℕ) : Pt) = 0 := by norm_num
  rw [← h0]
  exact Pt.natCast_inj ha P_pos

/-- The inverse of `2` in `ZMod P` (exists because `P` is odd). -/
def inv2 : ZMod P := ((P + 1) / 2 : ℕ)

theorem two_mul_inv2 : (2 : ZMod P) * inv2 = 1 := by
  have h : (2 * ((P + 1) / 2) : ℕ) = P + 1 := by decide
  have : ((2 * ((P + 1) / 2) : ℕ) : ZMod P) = ((P + 1 : ℕ) : ZMod P) := by rw [h]
  push_cast at this
  rw [ZMod.natCast_self] at this
  simpa [inv2] using this

theorem two_mul_cancel {a b : ZMod P} (h : 2 * a = 2 * b) : a = b := by
  have := congrArg (fun z => inv2 * z) h
  simp only [← mul_assoc, mul_comm inv2 2, two_mul_inv2, one_mul] at this
  exact this

theorem nsmul_neg_cast (k m : ℕ) : k • (-(m : Pt)) = -((k * m : ℕ) : Pt) := by
  rw [nsmul_eq_mul]
  push_cast
  ring

theorem cast_add_nsmul_neg {x k m : ℕ} (h : k * m ≤ x) :
    (x : Pt) + k • (-(m : Pt)) = ((x - k * m : ℕ) : Pt) := by
  rw [nsmul_neg_cast]
  have := Nat.cast_sub (R := Pt) h
  rw [this]
  ring

/-! ## Association lists modelling `HashMap`

`alLookup` is keyed lookup (first match); `alInsert` replaces the value of an
existing key and otherwise appends, exactly the observable behaviour of
`HashMap::insert` / `HashMap::get` (iteration order of a `HashMap` is
unspecified, so the list order is a free choice of the model). -/

def alLookup {K V : Type*} [DecidableEq K] : List (K × V) → K → Option V
  | [], _ => none
  | e :: rest, k => if e.1 = k then some e.2 else alLookup rest k

def alInsert {K V : Type*} [DecidableEq K] : List (K × V) → K → V → List (K × V)
  | [], k, v => [(k, v)]
  | e :: rest, k, v => if e.1 = k then (k, v) :: rest else e :: alInsert rest k v

theorem alLookup_nil {K V : Type*} [DecidableEq K] (k : K) :
    alLookup ([] : List (K × V)) k = none := rfl

theorem alLookup_cons {K V : Type*} [DecidableEq K] (e : K × V) (l : List (K × V)) (k : K) :
    alLookup (e :: l) k = if e.1 = k then some e.2 else alLookup l k := rfl

theorem alLookup_append {K V : Type*} [DecidableEq K] (l₁ l₂ : List (K × V)) (k : K) :
    alLookup (l₁ ++ l₂) k = (alLookup l₁ k).or (alLookup l₂ k) := by
  induction l₁ with
  | nil => simp [alLookup]
  | cons e rest ih =>
      by_cases h : e.1 = k <;> simp [alLookup, h, ih]

theorem alInsert_of_lookup_none {K V : Type*} [DecidableEq K]
    {l : List (K × V)} {k : K} (h : alLookup l k = none) (v : V) :
    alInsert l k v = l ++ [(k, v)] := by
  induction l with
  | nil => rfl
  | cons e rest ih =>
      rw [alLookup_cons] at h
      by_cases he : e.1 = k
      · simp [he] at h
      · simp only [he, if_false] at h
        simp [alInsert, he, ih h]

/-- Keys present after an `alInsert` are the new key or keys already present. -/
theorem alInsert_keys {K V : Type*} [DecidableEq K]
    {l : List (K × V)} {k : K} {v : V} {e : K × V}
    (h : e ∈ alInsert l k v) : e.1 = k ∨ e ∈ l := by
  induction l with
  | nil => simp [alInsert] at h; simp [h]
  | cons e' rest ih =>
      by_cases he : e'.1 = k
      · simp only [alInsert, he, if_true, List.mem_cons] at h
        rcases h with h | h
        · left; rw [h]
        · right; exact List.mem_cons_of_mem _ h
      · simp only [alInsert, he, if_false, List.mem_cons] at h
        rcases h with h | h
        · right; rw [h]; exact List.mem_cons_self _ _
        · rcases ih h with h' | h'
          · left; exact h'
          · right; exact List.mem_cons_of_mem _ h'

theorem alLookup_mem {K V : Type*} [DecidableEq K]
    {l : List (K × V)} {k : K} {v : V} (h : alLookup l k = some v) : (k, v) ∈ l := by
  induction l with
  | nil => simp [alLookup] at h
  | cons e rest ih =>
      rw [alLookup_cons] at h
      by_cases he : e.1 = k
      · simp only [he, if_true, Option.some.injEq] at h
        have : e = (k, v) := by
          cases e; simp_all
        rw [← this]; exact List.mem_cons_self _ _
      · simp only [he, if_false] at h
        exact List.mem_cons_of_mem _ (ih h)

/-! ## First-hit lemmas for scans over `List.range` -/

theorem findSome?_range_none {α : Type*} {f : ℕ → Option α} {n : ℕ}
    (h : ∀ i < n, f i = none) : (List.range n).findSome? f = none := by
  rw [List.findSome?_eq_none_iff]
  intro i hi
  exact h i (List.mem_range.mp hi)

theorem findSome?_range_first {α : Type*} {f : ℕ → Option α} {n t : ℕ} {a : α}
    (ht : t < n) (h0 : ∀ i < t, f i = none) (hs : f t = some a) :
    (List.range n).findSome? f = some a := by
  induction n with
  | zero => omega
  | succ m ih =>
      rw [List.range_succ, List.findSome?_append]
      rcases Nat.lt_or_ge t m with h | h
      · rw [ih h]; rfl
      · have : t = m := by omega
        subst this
        rw [findSome?_range_none h0]
        simp [hs]

theorem findSome?_range_some {α : Type*} {f : ℕ → Option α} {n : ℕ} {a : α}
    (h : (List.range n).findSome? f = some a) : ∃ i < n, f i = some a := by
  obtain ⟨i, hi, hfi⟩ := List.exists_of_findSome?_eq_some h
  exact ⟨i, List.mem_range.mp hi, hfi⟩

/-! ## Building a table by inserting `(key j, val j)` for `j = 0, …, n-1`

All table-generation loops of the library have this shape (BSGS inserts
`compress(j·g) ↦ j as u16`, BSGS-k inserts `compress(2·j·g) ↦ j as u64`,
the naive lookup inserts `compress(i·g) ↦ i`). -/

def buildTable {K : Type*} [DecidableEq K] (key : ℕ → K) (val : ℕ → ℕ) (n : ℕ) :
    List (K × ℕ) :=
  (List.range n).foldl (fun l j => alInsert l (key j) (val j)) []

theorem alLookup_map_range_none {K : Type*} [DecidableEq K]
    {key : ℕ → K} {val : ℕ → ℕ} {n : ℕ} {c : K} (h : ∀ j < n, key j ≠ c) :
    alLookup ((List.range n).map (fun j => (key j, val j))) c = none := by
  induction n with
  | zero => rfl
  | succ m ih =>
      rw [List.range_succ, List.map_append, alLookup_append]
      rw [ih (fun j hj => h j (by omega))]
      simp [alLookup, h m (by omega)]

theorem alLookup_map_range_hit {K : Type*} [DecidableEq K]
    {key : ℕ → K} {v : ℕ → ℕ} {n : ℕ}
    (hinj : ∀ i j, i < n → j < n → key i = key j → i = j)
    {j : ℕ} (hj : j < n) :
    alLookup ((List.range n).map (fun i => (key i, v i))) (key j) = some (v j) := by
  induction n with
  | zero => omega
  | succ m ih =>
      rw [List.range_succ, List.map_append, alLookup_append]
      rcases Nat.lt_or_ge j m with h | h
      · rw [ih (fun a b ha hb => hinj a b (by omega) (by omega)) h]; rfl
      · have hjm : j = m := by omega
        subst hjm
        rw [alLookup_map_range_none (fun i hi hc => by
          have := hinj i j (by omega) hj hc; omega)]
        simp [alLookup]

theorem alLookup_map_range_some {K : Type*} [DecidableEq K]
    {key : ℕ → K} {val : ℕ → ℕ} {n : ℕ} {c : K} {v : ℕ}
    (h : alLookup ((List.range n).map (fun j => (key j, val j))) c = some v) :
    ∃ j < n, key j = c ∧ val j = v := by
  have hmem := alLookup_mem h
  rw [List.mem_map] at hmem
  obtain ⟨j, hj, hkv⟩ := hmem
  refine ⟨j, List.mem_range.mp hj, ?_, ?_⟩
  · exact congrArg Prod.fst hkv
  · exact congrArg Prod.snd hkv

theorem buildTable_eq_map {K : Type*} [DecidableEq K]
    {key : ℕ → K} {v : ℕ → ℕ} {n : ℕ}
    (hinj : ∀ i j, i < n → j < n → key i = key j → i = j) :
    buildTable key v n = (List.range n).map (fun j => (key j, v j)) := by
  induction n with
  | zero => rfl
  | succ m ih =>
      have ihm := ih (fun a b ha hb => hinj a b (by omega) (by omega))
      unfold buildTable
      rw [List.range_succ, List.foldl_append]
      show alInsert (buildTable key v m) (key m) (v m) = _
      rw [ihm, alInsert_of_lookup_none
        (alLookup_map_range_none (fun j hj hc => by
          have := hinj j m (by omega) (by omega) hc; omega)) (v m)]
      simp

/-! ## Baby-step giant-step (`src/bsgs/mod.rs`) -/

/-- Table for plain BSGS: `max_num_bits` is the bit width ℓ, `m = 2^⌈ℓ/2⌉`
is the baby-step count, `baby_steps` maps `compress(j·g)` to `j as u16`, and
`giant_step` is the group element `(-m)·g`. -/
structure BabyStepGiantStepTable (K : Type*) where
  max_num_bits : ℕ
  m : ℕ
  baby_steps : List (K × ℕ)
  giant_step : Pt

/-- `BabyStepGiantStepTable::generate`: asserts `1 ≤ ℓ ≤ 32` (`none` models
the fatal assertion failure), sets `m = 1 << ((ℓ + 1) / 2)`, inserts
`compress(j·g) ↦ j as u16` for `j = 0, …, m-1` (the source starts from the
identity and adds `g` each iteration, so the `j`-th inserted point is `j·g`),
and computes `giant_step = (-m)·g`. -/
def BabyStepGiantStepTable.generate {K : Type*} [DecidableEq K]
    (compress : Pt → K) (max_num_bits : ℕ) : Option (BabyStepGiantStepTable K) :=
  if 1 ≤ max_num_bits ∧ max_num_bits ≤ 32 then
    some { max_num_bits := max_num_bits
           m := 2 ^ ((max_num_bits + 1) / 2)
           baby_steps := buildTable (fun j => compress ((j : ℕ) : Pt))
             (fun j => j % 2 ^ 16) (2 ^ ((max_num_bits + 1) / 2))
           giant_step := -((2 ^ ((max_num_bits + 1) / 2) : ℕ) : Pt) }
  else none

/-- The `for i in 0..m` loop of `BabyStepGiantStep::solve`: `fuel` is the
number of remaining iterations (started at `m`), `i` the current giant-step
index, `gamma` the running point (`pk` at entry, `+ giant_step` each
iteration).  On a table hit with value `j` the result is `i*m + j`. -/
def BabyStepGiantStep.solveLoop {K : Type*} [DecidableEq K] (compress : Pt → K)
    (t : BabyStepGiantStepTable K) : ℕ → ℕ → Pt → Option ℕ
  | 0, _, _ => none
  | fuel + 1, i, gamma =>
    match alLookup t.baby_steps (compress gamma) with
    | some j => some (i * t.m + j)
    | none => BabyStepGiantStep.solveLoop compress t fuel (i + 1) (gamma + t.giant_step)

/-- `BabyStepGiantStep::solve`: identity returns `0`; otherwise run the
giant-step loop.  `none` models the "no solution found in range" error. -/
def BabyStepGiantStep.solve {K : Type*} [DecidableEq K] (compress : Pt → K)
    (t : BabyStepGiantStepTable K) (pk : Pt) : Option ℕ :=
  if pk = 0 then some 0
  else BabyStepGiantStep.solveLoop compress t t.m 0 pk

theorem gamma_step {γ a : Pt} (k : ℕ) : γ + a + k • a = γ + (k + 1) • a := by
  rw [succ_nsmul]; ring

theorem bsgs_solveLoop_none {K : Type*} [DecidableEq K]
    {compress : Pt → K} {t : BabyStepGiantStepTable K} {fuel i : ℕ} {gamma : Pt}
    (h : ∀ k < fuel, alLookup t.baby_steps (compress (gamma + k • t.giant_step)) = none) :
    BabyStepGiantStep.solveLoop compress t fuel i gamma = none := by
  induction fuel generalizing i gamma with
  | zero => rfl
  | succ f ih =>
      have h0 := h 0 (by omega)
      simp only [zero_nsmul, add_zero] at h0
      unfold BabyStepGiantStep.solveLoop
      rw [h0]
      exact ih (fun k hk => by rw [gamma_step]; exact h (k + 1) (by omega))

theorem bsgs_solveLoop_first {K : Type*} [DecidableEq K]
    {compress : Pt → K} {t : BabyStepGiantStepTable K} {fuel i w j : ℕ} {γ : Pt} :
    w < fuel →
    (∀ k < w, alLookup t.baby_steps (compress (γ + k • t.giant_step)) = none) →
    alLookup t.baby_steps (compress (γ + w • t.giant_step)) = some j →
    BabyStepGiantStep.solveLoop compress t fuel i γ = some ((i + w) * t.m + j) := by
  induction fuel generalizing i γ w with
  | zero => intro ht; omega
  | succ f ih =>
      intro ht h0 hs
      unfold BabyStepGiantStep.solveLoop
      rcases Nat.eq_zero_or_pos w with h | h
      · subst h
        simp only [zero_nsmul, add_zero] at hs
        rw [hs]
        simp
      · obtain ⟨w', rfl⟩ : ∃ k, w = k + 1 := ⟨w - 1, by omega⟩
        have h00 := h0 0 (by omega)
        simp only [zero_nsmul, add_zero] at h00
        rw [h00]
        have hrec := ih (i := i + 1) (γ := γ + t.giant_step) (w := w')
          (by omega)
          (fun k hk => by rw [gamma_step]; exact h0 (k + 1) (by omega))
          (by rw [gamma_step]; exact hs)
        rw [hrec]
        have harith : i + 1 + w' = i + (w' + 1) := by omega
        rw [harith]

theorem bsgs_solveLoop_some {K : Type*} [DecidableEq K]
    {compress : Pt → K} {t : BabyStepGiantStepTable K} {fuel i : ℕ} {gamma : Pt} {r : ℕ}
    (h : BabyStepGiantStep.solveLoop compress t fuel i gamma = some r) :
    ∃ k < fuel, ∃ j, alLookup t.baby_steps (compress (gamma + k • t.giant_step)) = some j ∧
      r = (i + k) * t.m + j := by
  induction fuel generalizing i gamma with
  | zero => simp [BabyStepGiantStep.solveLoop] at h
  | succ f ih =>
      unfold BabyStepGiantStep.solveLoop at h
      rcases hl : alLookup t.baby_steps (compress gamma) with _ | j
      · rw [hl] at h
        obtain ⟨k, hk, j, hj, hr⟩ := ih h
        refine ⟨k + 1, by omega, j, ?_, ?_⟩
        · rw [← gamma_step]; exact hj
        · rw [hr]; congr 2; omega
      · rw [hl] at h
        refine ⟨0, by omega, j, ?_, ?_⟩
        · simpa using hl
        · simp at h ⊢; omega

/-! ## BSGS correctness -/

theorem bsgs_generate_inv {K : Type*} [DecidableEq K]
    {compress : Pt → K} {ℓ : ℕ} {t : BabyStepGiantStepTable K}
    (h : BabyStepGiantStepTable.generate compress ℓ = some t) :
    1 ≤ ℓ ∧ ℓ ≤ 32 ∧
    t = { max_num_bits := ℓ
          m := 2 ^ ((ℓ + 1) / 2)
          baby_steps := buildTable (fun j => compress ((j : ℕ) : Pt))
            (fun j => j % 2 ^ 16) (2 ^ ((ℓ + 1) / 2))
          giant_step := -((2 ^ ((ℓ + 1) / 2) : ℕ) : Pt) } := by
  by_cases hc : 1 ≤ ℓ ∧ ℓ ≤ 32
  · refine ⟨hc.1, hc.2, ?_⟩
    unfold BabyStepGiantStepTable.generate at h
    rw [if_pos hc] at h
    exact (Option.some.inj h).symm
  · unfold BabyStepGiantStepTable.generate at h
    rw [if_neg hc] at h
    cases h

/-- Solving `x·g` for `x < m²` succeeds and returns `x` (core form, stated on
the table record that `generate` produces). -/
theorem bsgs_core_in {K : Type*} [DecidableEq K] {compress : Pt → K}
    (hinj : Function.Injective compress) {b m x : ℕ}
    (hm16 : m ≤ 2 ^ 16) (hm1 : 1 ≤ m) (hx : x < m * m) :
    BabyStepGiantStep.solve compress
      ⟨b, m, buildTable (fun j => compress ((j : ℕ) : Pt)) (fun j => j % 2 ^ 16) m,
        -((m : ℕ) : Pt)⟩ ((x : ℕ) : Pt) = some x := by
  have hmP : m < P := lt_of_le_of_lt hm16 (lt_trans (by norm_num) two_pow_64_lt_P)
  have hmmP : m * m < P := by
    calc m * m ≤ 2 ^ 16 * 2 ^ 16 := Nat.mul_le_mul hm16 hm16
    _ < P := by decide
  have hxP : x < P := lt_trans hx hmmP
  have keyInj : ∀ i j, i < m → j < m →
      compress ((i : ℕ) : Pt) = compress ((j : ℕ) : Pt) → i = j := by
    intro i j hi hj hc
    exact (Pt.natCast_inj (by omega) (by omega)).mp (hinj hc)
  have hmap := buildTable_eq_map (v := fun j => j % 2 ^ 16) keyInj
  rcases Nat.eq_zero_or_pos x with rfl | hxpos
  · simp [BabyStepGiantStep.solve]
  · have hY : ((x : ℕ) : Pt) ≠ 0 := by
      rw [Ne, Pt.natCast_eq_zero_iff hxP]; omega
    unfold BabyStepGiantStep.solve
    rw [if_neg hY]
    have hdm : x / m * m + x % m = x := Nat.div_add_mod' x m
    have htg : x / m < m := (Nat.div_lt_iff_lt_mul (by omega)).mpr hx
    have hs : alLookup
        (buildTable (fun j => compress ((j : ℕ) : Pt)) (fun j => j % 2 ^ 16) m)
        (compress (((x : ℕ) : Pt) + (x / m) • (-((m : ℕ) : Pt)))) = some (x % m) := by
      rw [cast_add_nsmul_neg (Nat.div_mul_le_self x m)]
      have hsub : x - x / m * m = x % m := by omega
      rw [hsub, hmap]
      have := alLookup_map_range_hit (v := fun j => j % 2 ^ 16) keyInj
        (Nat.mod_lt x (by omega))
      rw [this]
      congr 1
      show x % m % 2 ^ 16 = x % m
      exact Nat.mod_eq_of_lt (lt_of_lt_of_le (Nat.mod_lt x (by omega)) hm16)
    have h0 : ∀ k < x / m, alLookup
        (buildTable (fun j => compress ((j : ℕ) : Pt)) (fun j => j % 2 ^ 16) m)
        (compress (((x : ℕ) : Pt) + k • (-((m : ℕ) : Pt)))) = none := by
      intro k hk
      have hkm : k * m ≤ x :=
        le_trans (Nat.mul_le_mul_right m (by omega)) (le_trans (Nat.div_mul_le_self x m) le_rfl)
      have hkm' : (k + 1) * m ≤ x := by
        calc (k + 1) * m ≤ x / m * m := Nat.mul_le_mul_right m (by omega)
        _ ≤ x := Nat.div_mul_le_self x m
      rw [cast_add_nsmul_neg hkm, hmap]
      apply alLookup_map_range_none
      intro j hj hc
      have hje := (Pt.natCast_inj (by omega) (by omega)).mp (hinj hc)
      have hexp : (k + 1) * m = k * m + m := by ring
      omega
    have := bsgs_solveLoop_first
      (t := ⟨b, m, buildTable (fun j => compress ((j : ℕ) : Pt)) (fun j => j % 2 ^ 16) m,
        -((m : ℕ) : Pt)⟩) (i := 0) htg h0 hs
    rw [this]
    show some ((0 + x / m) * m + x % m) = some x
    rw [Nat.zero_add, hdm]

/-- Solving `x·g` for `m² ≤ x < P` fails with "out of range" (core form). -/
theorem bsgs_core_none {K : Type*} [DecidableEq K] {compress : Pt → K}
    (hinj : Function.Injective compress) {b m x : ℕ}
    (hm16 : m ≤ 2 ^ 16) (hm1 : 1 ≤ m) (hxlo : m * m ≤ x) (hxhi : x < P) :
    BabyStepGiantStep.solve compress
      ⟨b, m, buildTable (fun j => compress ((j : ℕ) : Pt)) (fun j => j % 2 ^ 16) m,
        -((m : ℕ) : Pt)⟩ ((x : ℕ) : Pt) = none := by
  have hmP : m < P := lt_of_le_of_lt hm16 (lt_trans (by norm_num) two_pow_64_lt_P)
  have keyInj : ∀ i j, i < m → j < m →
      compress ((i : ℕ) : Pt) = compress ((j : ℕ) : Pt) → i = j := by
    intro i j hi hj hc
    exact (Pt.natCast_inj (by omega) (by omega)).mp (hinj hc)
  have hmap := buildTable_eq_map (v := fun j => j % 2 ^ 16) keyInj
  have hY : ((x : ℕ) : Pt) ≠ 0 := by
    rw [Ne, Pt.natCast_eq_zero_iff hxhi]
    nlinarith
  unfold BabyStepGiantStep.solve
  rw [if_neg hY]
  apply bsgs_solveLoop_none
  intro k hk
  have hkm : k * m ≤ x := by nlinarith
  have hkm' : (k + 1) * m ≤ x := by nlinarith
  show alLookup _ (compress (((x : ℕ) : Pt) + k • (-((m : ℕ) : Pt)))) = none
  rw [cast_add_nsmul_neg hkm, hmap]
  apply alLookup_map_range_none
  intro j hj hc
  have hje := (Pt.natCast_inj (by omega) (by omega)).mp (hinj hc)
  have hexp : (k + 1) * m = k * m + m := by ring
  omega

/-- Any successful BSGS answer `r` satisfies `r·g = Y` (core form). -/
theorem bsgs_core_sound {K : Type*} [DecidableEq K] {compress : Pt → K}
    (hinj : Function.Injective compress) {b m : ℕ} {Y : Pt} {r : ℕ}
    (hm16 : m ≤ 2 ^ 16)
    (h : BabyStepGiantStep.solve compress
      ⟨b, m, buildTable (fun j => compress ((j : ℕ) : Pt)) (fun j => j % 2 ^ 16) m,
        -((m : ℕ) : Pt)⟩ Y = some r) :
    ((r : ℕ) : Pt) = Y := by
  have hmP : m < P := lt_of_le_of_lt hm16 (lt_trans (by norm_num) two_pow_64_lt_P)
  have keyInj : ∀ i j, i < m → j < m →
      compress ((i : ℕ) : Pt) = compress ((j : ℕ) : Pt) → i = j := by
    intro i j hi hj hc
    exact (Pt.natCast_inj (by omega) (by omega)).mp (hinj hc)
  have hmap := buildTable_eq_map (v := fun j => j % 2 ^ 16) keyInj
  unfold BabyStepGiantStep.solve at h
  by_cases hY : Y = 0
  · rw [if_pos hY] at h
    have : r = 0 := by simpa using h.symm
    subst this
    simp [hY]
  · rw [if_neg hY] at h
    obtain ⟨k, hk, j, hlook, hr⟩ := bsgs_solveLoop_some h
    rw [hmap] at hlook
    obtain ⟨j', hj', hkey, hval⟩ := alLookup_map_range_some hlook
    have hcast : ((j' : ℕ) : Pt) = Y + k • (-((m : ℕ) : Pt)) := by
      exact hinj hkey
    have hj'16 : j' % 2 ^ 16 = j' := Nat.mod_eq_of_lt (lt_of_lt_of_le hj' hm16)
    have hYeq : Y = ((k * m + j' : ℕ) : Pt) := by
      rw [nsmul_neg_cast] at hcast
      push_cast
      push_cast at hcast
      linear_combination -hcast
    rw [hYeq, hr, ← hval, hj'16]
    push_cast
    ring_nf

/-! ## Naive lookup (`src/naive_lookup/mod.rs`) -/

/-- Table for the naive lookup: maps `compress(i·g)` to `i` for every
`i ∈ [0, 2^ℓ)`. -/
structure NaiveLookupTable (K : Type*) where
  max_num_bits : ℕ
  lookup : List (K × ℕ)

/-- `NaiveLookupTable::generate`: asserts `1 ≤ ℓ ≤ 32`, then inserts
`compress(i·g) ↦ i` for `i = 0, …, 2^ℓ - 1` (the source starts from the
identity and adds `g` each iteration). -/
def NaiveLookupTable.generate {K : Type*} [DecidableEq K]
    (compress : Pt → K) (max_num_bits : ℕ) : Option (NaiveLookupTable K) :=
  if 1 ≤ max_num_bits ∧ max_num_bits ≤ 32 then
    some { max_num_bits := max_num_bits
           lookup := buildTable (fun i => compress ((i : ℕ) : Pt)) (fun i => i)
             (2 ^ max_num_bits) }
  else none

/-- `NaiveLookup::solve`: one compression and one map lookup; an unmapped
input is the "no solution found in range" error.  There is no special case
for the identity. -/
def NaiveLookup.solve {K : Type*} [DecidableEq K] (compress : Pt → K)
    (t : NaiveLookupTable K) (pk : Pt) : Option ℕ :=
  alLookup t.lookup (compress pk)

theorem nl_generate_inv {K : Type*} [DecidableEq K]
    {compress : Pt → K} {ℓ : ℕ} {t : NaiveLookupTable K}
    (h : NaiveLookupTable.generate compress ℓ = some t) :
    1 ≤ ℓ ∧ ℓ ≤ 32 ∧
    t = { max_num_bits := ℓ
          lookup := buildTable (fun i => compress ((i : ℕ) : Pt)) (fun i => i)
            (2 ^ ℓ) } := by
  by_cases hc : 1 ≤ ℓ ∧ ℓ ≤ 32
  · refine ⟨hc.1, hc.2, ?_⟩
    unfold NaiveLookupTable.generate at h
    rw [if_pos hc] at h
    exact (Option.some.inj h).symm
  · unfold NaiveLookupTable.generate at h
    rw [if_neg hc] at h
    cases h

theorem nl_keyInj {K : Type*} [DecidableEq K] {compress : Pt → K}
    (hinj : Function.Injective compress) {n : ℕ} (hn : n ≤ 2 ^ 32) :
    ∀ i j, i < n → j < n → compress ((i : ℕ) : Pt) = compress ((j : ℕ) : Pt) → i = j := by
  intro i j hi hj hc
  have hnP : n < P := lt_of_le_of_lt hn (lt_trans (by norm_num) two_pow_64_lt_P)
  exact (Pt.natCast_inj (by omega) (by omega)).mp (hinj hc)

theorem nl_core_in {K : Type*} [DecidableEq K] {compress : Pt → K}
    (hinj : Function.Injective compress) {b n x : ℕ}
    (hn : n ≤ 2 ^ 32) (hx : x < n) :
    NaiveLookup.solve compress
      ⟨b, buildTable (fun i => compress ((i : ℕ) : Pt)) (fun i => i) n⟩
      ((x : ℕ) : Pt) = some x := by
  unfold NaiveLookup.solve
  show alLookup (buildTable (fun i => compress ((i : ℕ) : Pt)) (fun i => i) n) _ = _
  rw [buildTable_eq_map (nl_keyInj hinj hn)]
  exact alLookup_map_range_hit (v := fun i => i) (nl_keyInj hinj hn) hx

theorem nl_core_none {K : Type*} [DecidableEq K] {compress : Pt → K}
    (hinj : Function.Injective compress) {b n x : ℕ}
    (hn : n ≤ 2 ^ 32) (hxlo : n ≤ x) (hxhi : x < P) :
    NaiveLookup.solve compress
      ⟨b, buildTable (fun i => compress ((i : ℕ) : Pt)) (fun i => i) n⟩
      ((x : ℕ) : Pt) = none := by
  unfold NaiveLookup.solve
  show alLookup (buildTable (fun i => compress ((i : ℕ) : Pt)) (fun i => i) n) _ = _
  rw [buildTable_eq_map (nl_keyInj hinj hn)]
  apply alLookup_map_range_none
  intro j hj hc
  have hnP : n < P := lt_of_le_of_lt hn (lt_trans (by norm_num) two_pow_64_lt_P)
  have := (Pt.natCast_inj (by omega) (by omega)).mp (hinj hc)
  omega

theorem nl_core_sound {K : Type*} [DecidableEq K] {compress : Pt → K}
    (hinj : Function.Injective compress) {b n : ℕ} {Y : Pt} {r : ℕ}
    (hn : n ≤ 2 ^ 32)
    (h : NaiveLookup.solve compress
      ⟨b, buildTable (fun i => compress ((i : ℕ) : Pt)) (fun i => i) n⟩ Y = some r) :
    ((r : ℕ) : Pt) = Y := by
  unfold NaiveLookup.solve at h
  rw [show (⟨b, buildTable (fun i => compress ((i : ℕ) : Pt)) (fun i => i) n⟩ :
      NaiveLookupTable K).lookup =
      buildTable (fun i => compress ((i : ℕ) : Pt)) (fun i => i) n from rfl,
    buildTable_eq_map (nl_keyInj hinj hn)] at h
  obtain ⟨j, hj, hkey, hval⟩ := alLookup_map_range_some h
  rw [← hval]
  exact hinj hkey

/-! ## Batched BSGS, BSGS-k (`src/bsgs_k/mod.rs`) -/

/-- Table for BSGS-k.  Unlike plain BSGS, the baby-step map stores the
compression of the *doubled* baby step, `compress(2·j·g) ↦ j as u64`, and
`generate` accepts `1 ≤ ℓ ≤ 64` (values are `u64`, so `m ≤ 2^32` needs no
`u16` restriction). -/
structure BabyStepGiantStepKTable (K : Type*) where
  max_num_bits : ℕ
  m : ℕ
  baby_steps : List (K × ℕ)
  giant_step : Pt

/-- `BabyStepGiantStepKTable::generate`: asserts `1 ≤ ℓ ≤ 64`, builds the
points `j·g` for `j ∈ [0, m)` by repeated addition, applies
`double_and_compress_batch` (whose `j`-th output is `compress(2·j·g)`), and
inserts `compress(2·j·g) ↦ j as u64`; `giant_step = (-m)·g`. -/
def BabyStepGiantStepKTable.generate {K : Type*} [DecidableEq K]
    (compress : Pt → K) (max_num_bits : ℕ) : Option (BabyStepGiantStepKTable K) :=
  if 1 ≤ max_num_bits ∧ max_num_bits ≤ 64 then
    some { max_num_bits := max_num_bits
           m := 2 ^ ((max_num_bits + 1) / 2)
           baby_steps := buildTable (fun j => compress (2 * ((j : ℕ) : Pt)))
             (fun j => j) (2 ^ ((max_num_bits + 1) / 2))
           giant_step := -((2 ^ ((max_num_bits + 1) / 2) : ℕ) : Pt) }
  else none

/-- The `while batch_start < m` loop of `BabyStepGiantStepK::solve`.  A batch
of `b = min(K, m - batch_start)` points `batch_points[i] = gamma + i·giant_step`
is double-and-compressed (the `i`-th compression is
`compress(2·batch_points[i])`) and scanned in order for a table hit; the hit
at in-batch index `i` with value `j` yields `(batch_start + i)·m + j`.
Afterwards `gamma` has been advanced `b` times and `batch_start` by `b`.
`fuel` bounds the number of batches: `m` batches always suffice when
`K ≥ 1` (each batch advances `batch_start` by at least one); for `K = 0`
the source loops forever, which the model reports as `none` — all theorems
about this solver assume `K ≥ 1`. -/
def BabyStepGiantStepK.solveLoop {K : Type*} [DecidableEq K] (compress : Pt → K)
    (t : BabyStepGiantStepKTable K) (Kb : ℕ) : ℕ → ℕ → Pt → Option ℕ
  | 0, _, _ => none
  | fuel + 1, batch_start, gamma =>
    if batch_start < t.m then
      match (List.range (min Kb (t.m - batch_start))).findSome? (fun i =>
          (alLookup t.baby_steps (compress (2 * (gamma + i • t.giant_step)))).map
            (fun j => (batch_start + i) * t.m + j)) with
      | some x => some x
      | none => BabyStepGiantStepK.solveLoop compress t Kb fuel
          (batch_start + min Kb (t.m - batch_start))
          (gamma + (min Kb (t.m - batch_start)) • t.giant_step)
    else none

/-- `BabyStepGiantStepK::solve`: identity returns `0`, otherwise the batched
giant-step loop runs with `batch_start = 0` and `gamma = pk`. -/
def BabyStepGiantStepK.solve {K : Type*} [DecidableEq K] (compress : Pt → K)
    (t : BabyStepGiantStepKTable K) (Kb : ℕ) (pk : Pt) : Option ℕ :=
  if pk = 0 then some 0
  else BabyStepGiantStepK.solveLoop compress t Kb t.m 0 pk

theorem nsmul_assemble {Y : Pt} {gs : Pt} (s i : ℕ) :
    Y + s • gs + i • gs = Y + (s + i) • gs := by
  rw [add_nsmul]; ring

theorem bsgsK_solveLoop_none {K : Type*} [DecidableEq K]
    {compress : Pt → K} {t : BabyStepGiantStepKTable K} {Kb : ℕ} {Y : Pt} :
    ∀ {fuel s : ℕ} {gamma : Pt}, gamma = Y + s • t.giant_step →
    (∀ a, s ≤ a → a < t.m →
      alLookup t.baby_steps (compress (2 * (Y + a • t.giant_step))) = none) →
    BabyStepGiantStepK.solveLoop compress t Kb fuel s gamma = none := by
  intro fuel
  induction fuel with
  | zero => intro s gamma hg h; rfl
  | succ f ih =>
      intro s gamma hg h
      unfold BabyStepGiantStepK.solveLoop
      by_cases hs : s < t.m
      · rw [if_pos hs]
        have hbatch : (List.range (min Kb (t.m - s))).findSome? (fun i =>
            (alLookup t.baby_steps (compress (2 * (gamma + i • t.giant_step)))).map
              (fun j => (s + i) * t.m + j)) = none := by
          apply findSome?_range_none
          intro i hi
          rw [hg, nsmul_assemble]
          rw [h (s + i) (by omega) (by omega)]
          rfl
        rw [hbatch]
        exact ih (by rw [hg, nsmul_assemble]) (fun a ha ham => h a (by omega) ham)
      · rw [if_neg hs]

theorem bsgsK_solveLoop_first {K : Type*} [DecidableEq K]
    {compress : Pt → K} {t : BabyStepGiantStepKTable K} {Kb tg j : ℕ} {Y : Pt}
    (hKb : 1 ≤ Kb) (htg : tg < t.m)
    (h0 : ∀ a, a < tg →
      alLookup t.baby_steps (compress (2 * (Y + a • t.giant_step))) = none)
    (hs : alLookup t.baby_steps (compress (2 * (Y + tg • t.giant_step))) = some j) :
    ∀ {f s : ℕ} {γ : Pt}, γ = Y + s • t.giant_step → s ≤ tg →
    t.m - s ≤ f →
    BabyStepGiantStepK.solveLoop compress t Kb f s γ = some (tg * t.m + j) := by
  intro fuel
  induction fuel with
  | zero => intro s gamma hg hstg hfuel; omega
  | succ f ih =>
      intro s gamma hg hstg hfuel
      have hsm : s < t.m := by omega
      have hb1 : 1 ≤ min Kb (t.m - s) := by omega
      unfold BabyStepGiantStepK.solveLoop
      rw [if_pos hsm]
      by_cases hin : tg < s + min Kb (t.m - s)
      · have hbatch : (List.range (min Kb (t.m - s))).findSome? (fun i =>
            (alLookup t.baby_steps (compress (2 * (gamma + i • t.giant_step)))).map
              (fun j => (s + i) * t.m + j)) = some (tg * t.m + j) := by
          apply findSome?_range_first (t := tg - s) (by omega)
          · intro i hi
            rw [hg, nsmul_assemble, h0 (s + i) (by omega)]
            rfl
          · rw [hg, nsmul_assemble]
            have : s + (tg - s) = tg := by omega
            rw [this, hs]
            rfl
        rw [hbatch]
      · have hbatch : (List.range (min Kb (t.m - s))).findSome? (fun i =>
            (alLookup t.baby_steps (compress (2 * (gamma + i • t.giant_step)))).map
              (fun j => (s + i) * t.m + j)) = none := by
          apply findSome?_range_none
          intro i hi
          rw [hg, nsmul_assemble, h0 (s + i) (by omega)]
          rfl
        rw [hbatch]
        exact ih (by rw [hg, nsmul_assemble]) (by omega) (by omega)

theorem bsgsK_solveLoop_some {K : Type*} [DecidableEq K]
    {compress : Pt → K} {t : BabyStepGiantStepKTable K} {Kb : ℕ} {Y : Pt} {r : ℕ} :
    ∀ {fuel s : ℕ} {gamma : Pt}, gamma = Y + s • t.giant_step →
    BabyStepGiantStepK.solveLoop compress t Kb fuel s gamma = some r →
    ∃ a, s ≤ a ∧ a < t.m ∧ ∃ j,
      alLookup t.baby_steps (compress (2 * (Y + a • t.giant_step))) = some j ∧
      r = a * t.m + j := by
  intro fuel
  induction fuel with
  | zero => intro s gamma hg h; cases h
  | succ f ih =>
      intro s gamma hg h
      unfold BabyStepGiantStepK.solveLoop at h
      by_cases hsm : s < t.m
      · rw [if_pos hsm] at h
        rcases hbatch : (List.range (min Kb (t.m - s))).findSome? (fun i =>
            (alLookup t.baby_steps (compress (2 * (gamma + i • t.giant_step)))).map
              (fun j => (s + i) * t.m + j)) with _ | x
        · rw [hbatch] at h
          obtain ⟨a, ha1, ha2, j, hj, hr⟩ := ih (by rw [hg, nsmul_assemble]) h
          exact ⟨a, by omega, ha2, j, hj, hr⟩
        · rw [hbatch] at h
          obtain ⟨i, hi, hfi⟩ := findSome?_range_some hbatch
          rw [hg, nsmul_assemble] at hfi
          rcases hlook : alLookup t.baby_steps
              (compress (2 * (Y + (s + i) • t.giant_step))) with _ | j
          · rw [hlook] at hfi; cases hfi
          · rw [hlook] at hfi
            refine ⟨s + i, by omega, by omega, j, hlook, ?_⟩
            have hx : x = (s + i) * t.m + j := by
              simpa using hfi.symm
            have hrx : r = x := by
              simpa using h.symm
            omega
      · rw [if_neg hsm] at h
        cases h

theorem bsgsK_generate_inv {K : Type*} [DecidableEq K]
    {compress : Pt → K} {ℓ : ℕ} {t : BabyStepGiantStepKTable K}
    (h : BabyStepGiantStepKTable.generate compress ℓ = some t) :
    1 ≤ ℓ ∧ ℓ ≤ 64 ∧
    t = { max_num_bits := ℓ
          m := 2 ^ ((ℓ + 1) / 2)
          baby_steps := buildTable (fun j => compress (2 * ((j : ℕ) : Pt)))
            (fun j => j) (2 ^ ((ℓ + 1) / 2))
          giant_step := -((2 ^ ((ℓ + 1) / 2) : ℕ) : Pt) } := by
  by_cases hc : 1 ≤ ℓ ∧ ℓ ≤ 64
  · refine ⟨hc.1, hc.2, ?_⟩
    unfold BabyStepGiantStepKTable.generate at h
    rw [if_pos hc] at h
    exact (Option.some.inj h).symm
  · unfold BabyStepGiantStepKTable.generate at h
    rw [if_neg hc] at h
    cases h

theorem doubled_keyInj {K : Type*} [DecidableEq K] {compress : Pt → K}
    (hinj : Function.Injective compress) {n : ℕ} (hn : n ≤ 2 ^ 32) :
    ∀ i j, i < n → j < n →
      compress (2 * ((i : ℕ) : Pt)) = compress (2 * ((j : ℕ) : Pt)) → i = j := by
  intro i j hi hj hc
  have hnP : n < P := lt_of_le_of_lt hn (lt_trans (by norm_num) two_pow_64_lt_P)
  exact (Pt.natCast_inj (by omega) (by omega)).mp (two_mul_cancel (hinj hc))

theorem bsgsk_core_in {K : Type*} [DecidableEq K] {compress : Pt → K}
    (hinj : Function.Injective compress) {b m x Kb : ℕ}
    (hm32 : m ≤ 2 ^ 32) (hm1 : 1 ≤ m) (hKb : 1 ≤ Kb) (hx : x < m * m) :
    BabyStepGiantStepK.solve compress
      ⟨b, m, buildTable (fun j => compress (2 * ((j : ℕ) : Pt))) (fun j => j) m,
        -((m : ℕ) : Pt)⟩ Kb ((x : ℕ) : Pt) = some x := by
  have hmP : m < P := lt_of_le_of_lt hm32 (lt_trans (by norm_num) two_pow_64_lt_P)
  have hmmP : m * m < P := by
    calc m * m ≤ 2 ^ 32 * 2 ^ 32 := Nat.mul_le_mul hm32 hm32
    _ < P := by decide
  have hxP : x < P := lt_trans hx hmmP
  have keyInj := doubled_keyInj hinj (le_refl (2 ^ 32))
  have hmap := buildTable_eq_map (v := fun j => j)
    (fun i j hi hj hc => doubled_keyInj hinj hm32 i j hi hj hc)
  rcases Nat.eq_zero_or_pos x with rfl | hxpos
  · simp [BabyStepGiantStepK.solve]
  · have hY : ((x : ℕ) : Pt) ≠ 0 := by
      rw [Ne, Pt.natCast_eq_zero_iff hxP]; omega
    unfold BabyStepGiantStepK.solve
    rw [if_neg hY]
    have hdm : x / m * m + x % m = x := Nat.div_add_mod' x m
    have htg : x / m < m := (Nat.div_lt_iff_lt_mul (by omega)).mpr hx
    have hgoal := bsgsK_solveLoop_first
      (t := ⟨b, m, buildTable (fun j => compress (2 * ((j : ℕ) : Pt))) (fun j => j) m,
        -((m : ℕ) : Pt)⟩) (j := x % m) (Y := ((x : ℕ) : Pt))
      hKb htg
      (by
        intro a ha
        show alLookup _ (compress (2 * (((x : ℕ) : Pt) + a • (-((m : ℕ) : Pt))))) = none
        have ham : a * m ≤ x := by
          have h1 : (a + 1) * m ≤ x / m * m := Nat.mul_le_mul_right m (by omega)
          have h2 : x / m * m ≤ x := Nat.div_mul_le_self x m
          have hexp : (a + 1) * m = a * m + m := by ring
          omega
        rw [cast_add_nsmul_neg ham]
        show alLookup (buildTable (fun j => compress (2 * ((j : ℕ) : Pt))) (fun j => j) m)
          (compress (2 * ((x - a * m : ℕ) : Pt))) = none
        rw [hmap]
        apply alLookup_map_range_none
        intro j hj hc
        have hje := (Pt.natCast_inj (by omega) (by omega)).mp (two_mul_cancel (hinj hc))
        have h1 : (a + 1) * m ≤ x / m * m := Nat.mul_le_mul_right m (by omega)
        have h2 : x / m * m ≤ x := Nat.div_mul_le_self x m
        have hexp : (a + 1) * m = a * m + m := by ring
        omega)
      (by
        show alLookup _ (compress (2 * (((x : ℕ) : Pt) + (x / m) • (-((m : ℕ) : Pt))))) =
          some (x % m)
        rw [cast_add_nsmul_neg (Nat.div_mul_le_self x m)]
        have hsub : x - x / m * m = x % m := by omega
        rw [hsub]
        show alLookup (buildTable (fun j => compress (2 * ((j : ℕ) : Pt))) (fun j => j) m)
          (compress (2 * ((x % m : ℕ) : Pt))) = some (x % m)
        rw [hmap]
        exact alLookup_map_range_hit (v := fun j => j)
          (fun i j hi hj hc => doubled_keyInj hinj hm32 i j hi hj hc)
          (Nat.mod_lt x (by omega)))
      (f := m) (s := 0) (γ := ((x : ℕ) : Pt)) (by simp) (Nat.zero_le _)
      (by show m - 0 ≤ m; omega)
    rw [hgoal]
    rw [show x / m * m + x % m = x from hdm]

theorem bsgsk_core_none {K : Type*} [DecidableEq K] {compress : Pt → K}
    (hinj : Function.Injective compress) {b m x Kb : ℕ}
    (hm32 : m ≤ 2 ^ 32) (hm1 : 1 ≤ m) (hxlo : m * m ≤ x) (hxhi : x < P) :
    BabyStepGiantStepK.solve compress
      ⟨b, m, buildTable (fun j => compress (2 * ((j : ℕ) : Pt))) (fun j => j) m,
        -((m : ℕ) : Pt)⟩ Kb ((x : ℕ) : Pt) = none := by
  have hmP : m < P := lt_of_le_of_lt hm32 (lt_trans (by norm_num) two_pow_64_lt_P)
  have hmap := buildTable_eq_map (v := fun j => j)
    (fun i j hi hj hc => doubled_keyInj hinj hm32 i j hi hj hc)
  have hY : ((x : ℕ) : Pt) ≠ 0 := by
    rw [Ne, Pt.natCast_eq_zero_iff hxhi]
    nlinarith
  unfold BabyStepGiantStepK.solve
  rw [if_neg hY]
  apply bsgsK_solveLoop_none (Y := ((x : ℕ) : Pt)) (by simp)
  intro a ha0 ham
  have hkm : a * m ≤ x := by nlinarith
  have hkm' : a * m + m ≤ x := by nlinarith
  show alLookup _ (compress (2 * (((x : ℕ) : Pt) + a • (-((m : ℕ) : Pt))))) = none
  rw [cast_add_nsmul_neg hkm]
  show alLookup (buildTable (fun j => compress (2 * ((j : ℕ) : Pt))) (fun j => j) m)
    (compress (2 * ((x - a * m : ℕ) : Pt))) = none
  rw [hmap]
  apply alLookup_map_range_none
  intro j hj hc
  have hje := (Pt.natCast_inj (by omega) (by omega)).mp (two_mul_cancel (hinj hc))
  omega

theorem bsgsk_core_sound {K : Type*} [DecidableEq K] {compress : Pt → K}
    (hinj : Function.Injective compress) {b m Kb : ℕ} {Y : Pt} {r : ℕ}
    (hm32 : m ≤ 2 ^ 32)
    (h : BabyStepGiantStepK.solve compress
      ⟨b, m, buildTable (fun j => compress (2 * ((j : ℕ) : Pt))) (fun j => j) m,
        -((m : ℕ) : Pt)⟩ Kb Y = some r) :
    ((r : ℕ) : Pt) = Y := by
  have hmP : m < P := lt_of_le_of_lt hm32 (lt_trans (by norm_num) two_pow_64_lt_P)
  have hmap := buildTable_eq_map (v := fun j => j)
    (fun i j hi hj hc => doubled_keyInj hinj hm32 i j hi hj hc)
  unfold BabyStepGiantStepK.solve at h
  by_cases hY : Y = 0
  · rw [if_pos hY] at h
    have : r = 0 := by simpa using h.symm
    subst this
    simp [hY]
  · rw [if_neg hY] at h
    obtain ⟨a, ha0, ham, j, hlook, hr⟩ :=
      bsgsK_solveLoop_some (Y := Y) (by simp) h
    rw [show (⟨b, m, buildTable (fun j => compress (2 * ((j : ℕ) : Pt))) (fun j => j) m,
        -((m : ℕ) : Pt)⟩ : BabyStepGiantStepKTable K).baby_steps =
      buildTable (fun j => compress (2 * ((j : ℕ) : Pt))) (fun j => j) m from rfl,
      hmap] at hlook
    obtain ⟨j', hj', hkey, hval⟩ := alLookup_map_range_some hlook
    have hcast : ((j' : ℕ) : Pt) = Y + a • (-((m : ℕ) : Pt)) :=
      two_mul_cancel (hinj hkey)
    have hYeq : Y = ((a * m + j' : ℕ) : Pt) := by
      rw [nsmul_neg_cast] at hcast
      push_cast
      push_cast at hcast
      linear_combination -hcast
    rw [hYeq, hr, ← hval]

/-! ## Naive doubled lookup (`src/naive_doubled_lookup/mod.rs`): a read-only
adapter over a BSGS-k table -/

/-- `NaiveDoubledLookup::solve`: double the input (`y + y`), compress, and
look the compression up in the shared BSGS-k doubled baby-step table; a hit
with value `j` is returned as `j` (no verification step). -/
def NaiveDoubledLookup.solve {K : Type*} [DecidableEq K] (compress : Pt → K)
    (t : BabyStepGiantStepKTable K) (y : Pt) : Option ℕ :=
  alLookup t.baby_steps (compress (y + y))

/-- `NaiveDoubledLookup::new_and_compute_table`: generates a BSGS-k table for
`2·ℓ` bits, so that the doubled baby-step map covers exactly `[0, 2^ℓ)`. -/
def NaiveDoubledLookup.new_and_compute_table {K : Type*} [DecidableEq K]
    (compress : Pt → K) (max_num_bits : ℕ) : Option (BabyStepGiantStepKTable K) :=
  BabyStepGiantStepKTable.generate compress (max_num_bits * 2)

theorem ndl_core_in {K : Type*} [DecidableEq K] {compress : Pt → K}
    (hinj : Function.Injective compress) {b m x : ℕ} {gs : Pt}
    (hm32 : m ≤ 2 ^ 32) (hx : x < m) :
    NaiveDoubledLookup.solve compress
      ⟨b, m, buildTable (fun j => compress (2 * ((j : ℕ) : Pt))) (fun j => j) m, gs⟩
      ((x : ℕ) : Pt) = some x := by
  unfold NaiveDoubledLookup.solve
  show alLookup (buildTable (fun j => compress (2 * ((j : ℕ) : Pt))) (fun j => j) m)
    (compress (((x : ℕ) : Pt) + ((x : ℕ) : Pt))) = some x
  rw [← two_mul, buildTable_eq_map (fun i j hi hj hc => doubled_keyInj hinj hm32 i j hi hj hc)]
  exact alLookup_map_range_hit (v := fun j => j)
    (fun i j hi hj hc => doubled_keyInj hinj hm32 i j hi hj hc) hx

theorem ndl_core_none {K : Type*} [DecidableEq K] {compress : Pt → K}
    (hinj : Function.Injective compress) {b m x : ℕ} {gs : Pt}
    (hm32 : m ≤ 2 ^ 32) (hxlo : m ≤ x) (hxhi : x < P) :
    NaiveDoubledLookup.solve compress
      ⟨b, m, buildTable (fun j => compress (2 * ((j : ℕ) : Pt))) (fun j => j) m, gs⟩
      ((x : ℕ) : Pt) = none := by
  have hmP : m < P := lt_of_le_of_lt hm32 (lt_trans (by norm_num) two_pow_64_lt_P)
  unfold NaiveDoubledLookup.solve
  show alLookup (buildTable (fun j => compress (2 * ((j : ℕ) : Pt))) (fun j => j) m)
    (compress (((x : ℕ) : Pt) + ((x : ℕ) : Pt))) = none
  rw [← two_mul, buildTable_eq_map (fun i j hi hj hc => doubled_keyInj hinj hm32 i j hi hj hc)]
  apply alLookup_map_range_none
  intro j hj hc
  have := (Pt.natCast_inj (by omega) (by omega)).mp (two_mul_cancel (hinj hc))
  omega

theorem ndl_core_sound {K : Type*} [DecidableEq K] {compress : Pt → K}
    (hinj : Function.Injective compress) {b m : ℕ} {gs : Pt} {Y : Pt} {r : ℕ}
    (hm32 : m ≤ 2 ^ 32)
    (h : NaiveDoubledLookup.solve compress
      ⟨b, m, buildTable (fun j => compress (2 * ((j : ℕ) : Pt))) (fun j => j) m, gs⟩
      Y = some r) :
    ((r : ℕ) : Pt) = Y := by
  unfold NaiveDoubledLookup.solve at h
  rw [show (⟨b, m, buildTable (fun j => compress (2 * ((j : ℕ) : Pt))) (fun j => j) m,
      gs⟩ : BabyStepGiantStepKTable K).baby_steps =
    buildTable (fun j => compress (2 * ((j : ℕ) : Pt))) (fun j => j) m from rfl,
    ← two_mul,
    buildTable_eq_map (fun i j hi hj hc => doubled_keyInj hinj hm32 i j hi hj hc)] at h
  obtain ⟨j, hj, hkey, hval⟩ := alLookup_map_range_some h
  rw [← hval]
  exact two_mul_cancel (hinj hkey)

/-! ## Truncated batched BSGS, TBSGS-k (`src/tbsgs_k/mod.rs`)

The 8-byte truncation `truncate_key` of a compressed point is modelled by an
abstract function `trunc : K → ℕ` (no properties assumed: the proofs below
hold for an arbitrary truncation, and table generation explicitly handles
truncation collisions). -/

theorem alInsert_cons {K V : Type*} [DecidableEq K]
    (e : K × V) (rest : List (K × V)) (k : K) (v : V) :
    alInsert (e :: rest) k v =
      if e.1 = k then (k, v) :: rest else e :: alInsert rest k v := rfl

theorem alLookup_alInsert {K V : Type*} [DecidableEq K]
    (l : List (K × V)) (k k' : K) (v : V) :
    alLookup (alInsert l k v) k' = if k' = k then some v else alLookup l k' := by
  induction l with
  | nil =>
      show (if k = k' then some v else alLookup ([] : List (K × V)) k') = _
      by_cases h : k = k'
      · rw [if_pos h, if_pos h.symm]
      · rw [if_neg h, if_neg (fun hh => h hh.symm)]
  | cons e rest ih =>
      rw [alInsert_cons]
      by_cases he : e.1 = k
      · rw [if_pos he, alLookup_cons]
        by_cases h : k = k'
        · rw [if_pos h, if_pos h.symm]
        · rw [if_neg h, if_neg (fun hh => h hh.symm), alLookup_cons,
            if_neg (fun hh => h (he.symm.trans hh))]
      · rw [if_neg he, alLookup_cons, ih]
        by_cases hek : e.1 = k'
        · have hk : ¬ k' = k := fun hh => he (hek.trans hh)
          rw [if_pos hek, if_neg hk, alLookup_cons, if_pos hek]
        · by_cases hk : k' = k
          · rw [if_neg hek, if_pos hk, if_pos hk]
          · rw [if_neg hek, if_neg hk, if_neg hk, alLookup_cons, if_neg hek]

/-- Table for TBSGS-k: `baby_steps` maps the truncated key
`trunc(compress(2·j·g))` (a `u64`) to `j as u16`; the table type no longer
mentions the compressed-point type. -/
structure TruncatedBabyStepGiantStepKTable where
  max_num_bits : ℕ
  m : ℕ
  baby_steps : List (ℕ × ℕ)
  giant_step : Pt

/-- The insertion loop of `TruncatedBabyStepGiantStepKTable::generate`: for
each `j` in order, panic (`none`) if the truncated key of baby step `j` is
already present, otherwise insert `keyOf j ↦ j as u16`. -/
def tbsgsInsertAll (keyOf : ℕ → ℕ) : List ℕ → List (ℕ × ℕ) → Option (List (ℕ × ℕ))
  | [], acc => some acc
  | j :: rest, acc =>
    match alLookup acc (keyOf j) with
    | some _ => none
    | none => tbsgsInsertAll keyOf rest (alInsert acc (keyOf j) (j % 2 ^ 16))

/-- `TruncatedBabyStepGiantStepKTable::generate`: asserts `1 ≤ ℓ ≤ 32`,
computes the doubled-and-compressed baby steps (the `j`-th is
`compress(2·j·g)`), truncates each, and inserts with the collision check;
`giant_step = (-m)·g`.  `none` models both the assertion failure and the
truncated-key-collision panic. -/
def TruncatedBabyStepGiantStepKTable.generate {K : Type*} [DecidableEq K]
    (compress : Pt → K) (trunc : K → ℕ) (max_num_bits : ℕ) :
    Option TruncatedBabyStepGiantStepKTable :=
  if 1 ≤ max_num_bits ∧ max_num_bits ≤ 32 then
    match tbsgsInsertAll (fun j => trunc (compress (2 * ((j : ℕ) : Pt))))
        (List.range (2 ^ ((max_num_bits + 1) / 2))) [] with
    | some bs => some { max_num_bits := max_num_bits
                        m := 2 ^ ((max_num_bits + 1) / 2)
                        baby_steps := bs
                        giant_step := -((2 ^ ((max_num_bits + 1) / 2) : ℕ) : Pt) }
    | none => none
  else none

theorem tbsgsInsertAll_cons (keyOf : ℕ → ℕ) (j : ℕ) (rest : List ℕ)
    (acc : List (ℕ × ℕ)) :
    tbsgsInsertAll keyOf (j :: rest) acc =
      match alLookup acc (keyOf j) with
      | some _ => none
      | none => tbsgsInsertAll keyOf rest (alInsert acc (keyOf j) (j % 2 ^ 16)) := rfl

theorem tbsgsInsertAll_append (keyOf : ℕ → ℕ) (l₁ l₂ : List ℕ) (acc : List (ℕ × ℕ)) :
    tbsgsInsertAll keyOf (l₁ ++ l₂) acc =
      match tbsgsInsertAll keyOf l₁ acc with
      | some acc' => tbsgsInsertAll keyOf l₂ acc'
      | none => none := by
  induction l₁ generalizing acc with
  | nil => rfl
  | cons j rest ih =>
      show tbsgsInsertAll keyOf (j :: (rest ++ l₂)) acc = _
      rcases hl : alLookup acc (keyOf j) with _ | v
      · simp only [tbsgsInsertAll_cons, hl]
        exact ih _
      · simp only [tbsgsInsertAll_cons, hl]

/-- If the insertion loop succeeds, every key it was asked to insert was
absent from the accumulator at its turn; in particular it was absent from the
initial accumulator. -/
theorem tbsgsInsertAll_some_absent {keyOf : ℕ → ℕ} :
    ∀ {l : List ℕ} {acc res : List (ℕ × ℕ)},
    tbsgsInsertAll keyOf l acc = some res →
    ∀ i ∈ l, alLookup acc (keyOf i) = none := by
  intro l
  induction l with
  | nil => intro acc res h i hi; cases hi
  | cons j rest ih =>
      intro acc res h i hi
      unfold tbsgsInsertAll at h
      rcases hl : alLookup acc (keyOf j) with _ | v
      · rw [hl] at h
        rcases List.mem_cons.mp hi with rfl | hi'
        · exact hl
        · have := ih h i hi'
          rw [alLookup_alInsert] at this
          by_cases hk : keyOf i = keyOf j
          · rw [if_pos hk] at this; cases this
          · rwa [if_neg hk] at this
      · rw [hl] at h; cases h

/-- If the insertion loop succeeds, the requested keys were pairwise distinct
(per distinct list entries). -/
theorem tbsgsInsertAll_some_inj {keyOf : ℕ → ℕ} :
    ∀ {l : List ℕ} {acc res : List (ℕ × ℕ)},
    tbsgsInsertAll keyOf l acc = some res →
    ∀ i ∈ l, ∀ j ∈ l, i ≠ j → keyOf i ≠ keyOf j := by
  intro l
  induction l with
  | nil => intro acc res h i hi; cases hi
  | cons a rest ih =>
      intro acc res h i hi j hj hne
      unfold tbsgsInsertAll at h
      rcases hl : alLookup acc (keyOf a) with _ | v
      · rw [hl] at h
        have habsent := tbsgsInsertAll_some_absent h
        rcases List.mem_cons.mp hi with rfl | hi' <;> rcases List.mem_cons.mp hj with rfl | hj'
        · omega
        · have := habsent j hj'
          rw [alLookup_alInsert] at this
          by_cases hk : keyOf j = keyOf i
          · rw [if_pos hk] at this; cases this
          · exact fun hh => hk hh.symm
        · have := habsent i hi'
          rw [alLookup_alInsert] at this
          by_cases hk : keyOf i = keyOf j
          · rw [if_pos hk] at this; cases this
          · exact hk
        · exact ih h i hi' j hj' hne
      · rw [hl] at h; cases h

/-- Success of the insertion loop over `range m` with an injective key
function: the result maps exactly `keyOf j ↦ j as u16` for `j < m`. -/
theorem tbsgsInsertAll_range_some {keyOf : ℕ → ℕ} {m : ℕ}
    (hinj : ∀ i j, i < m → j < m → keyOf i = keyOf j → i = j) :
    ∃ res, tbsgsInsertAll keyOf (List.range m) [] = some res ∧
      ∀ k v, alLookup res k = some v ↔ ∃ j < m, keyOf j = k ∧ v = j % 2 ^ 16 := by
  induction m with
  | zero =>
      refine ⟨[], rfl, ?_⟩
      intro k v
      constructor
      · intro h; cases h
      · rintro ⟨j, hj, _, _⟩; omega
  | succ n ih =>
      obtain ⟨res, hres, hchar⟩ := ih (fun i j hi hj hk => hinj i j (by omega) (by omega) hk)
      have habsent : alLookup res (keyOf n) = none := by
        rcases hx : alLookup res (keyOf n) with _ | v
        · rfl
        · obtain ⟨j, hj, hkj, _⟩ := (hchar (keyOf n) v).mp hx
          have := hinj j n (by omega) (by omega) hkj
          omega
      refine ⟨alInsert res (keyOf n) (n % 2 ^ 16), ?_, ?_⟩
      · rw [List.range_succ, tbsgsInsertAll_append, hres]
        show tbsgsInsertAll keyOf [n] res = _
        unfold tbsgsInsertAll
        rw [habsent]
        rfl
      · intro k v
        rw [alLookup_alInsert]
        by_cases hk : k = keyOf n
        · rw [if_pos hk]
          constructor
          · intro h
            exact ⟨n, by omega, hk.symm, (Option.some.inj h).symm⟩
          · rintro ⟨j, hj, hkj, hv⟩
            have : j = n := by
              by_cases hjn : j = n
              · exact hjn
              · have := hinj j n (by omega) (by omega) (by rw [hkj, hk])
                omega
            subst this
            rw [hv]
        · rw [if_neg hk]
          rw [hchar]
          constructor
          · rintro ⟨j, hj, hkj, hv⟩
            exact ⟨j, by omega, hkj, hv⟩
          · rintro ⟨j, hj, hkj, hv⟩
            refine ⟨j, ?_, hkj, hv⟩
            by_cases hjn : j = n
            · subst hjn; rw [← hkj] at hk; omega
            · omega

/-- `tbsgsInsertAll` over `range m` from the empty map, with collision-free
keys, produces exactly the in-order association list. -/
theorem tbsgsInsertAll_range_list {keyOf : ℕ → ℕ} {m : ℕ}
    (hinj : ∀ i j, i < m → j < m → keyOf i = keyOf j → i = j) :
    tbsgsInsertAll keyOf (List.range m) [] =
      some ((List.range m).map (fun j => (keyOf j, j % 2 ^ 16))) := by
  induction m with
  | zero => rfl
  | succ n ih =>
      have ihn := ih (fun i j hi hj hk => hinj i j (by omega) (by omega) hk)
      rw [List.range_succ, tbsgsInsertAll_append, ihn]
      show tbsgsInsertAll keyOf [n] ((List.range n).map (fun j => (keyOf j, j % 2 ^ 16))) = _
      have habsent : alLookup ((List.range n).map (fun j => (keyOf j, j % 2 ^ 16)))
          (keyOf n) = none :=
        alLookup_map_range_none (fun j hj hc => by
          have := hinj j n (by omega) (by omega) hc; omega)
      rw [tbsgsInsertAll_cons, habsent]
      show some (alInsert _ (keyOf n) (n % 2 ^ 16)) = _
      rw [alInsert_of_lookup_none habsent, List.map_append]
      simp

/-- The per-candidate check of the TBSGS-k scan at absolute giant-step index
`a`: look up the truncated key of `compress(2·(Y + a·giant_step))`; on a hit
with value `j`, verify that the (undoubled) candidate equals `j·g` — a failed
verification (a truncation false positive) is treated as no-match. -/
def tbsgsCheck {K : Type*} (compress : Pt → K) (trunc : K → ℕ)
    (t : TruncatedBabyStepGiantStepKTable) (Y : Pt) (a : ℕ) : Option ℕ :=
  match alLookup t.baby_steps (trunc (compress (2 * (Y + a • t.giant_step)))) with
  | some j => if Y + a • t.giant_step = ((j : ℕ) : Pt)
      then some (a * t.m + j) else none
  | none => none

/-- The `while batch_start < m` loop of `TruncatedBabyStepGiantStepK::solve`:
as in BSGS-k, a batch of `b = min(K, m - batch_start)` candidates is
double-and-compressed and scanned; each hit is verified against the
already-available batch point (`batch_points[i] == j·g`) and a mismatch
continues the scan.  `fuel` bounds the number of batches exactly as for
BSGS-k. -/
def TruncatedBabyStepGiantStepK.solveLoop {K : Type*} (compress : Pt → K)
    (trunc : K → ℕ) (t : TruncatedBabyStepGiantStepKTable) (Kb : ℕ) :
    ℕ → ℕ → Pt → Option ℕ
  | 0, _, _ => none
  | fuel + 1, batch_start, gamma =>
    if batch_start < t.m then
      match (List.range (min Kb (t.m - batch_start))).findSome? (fun i =>
          match alLookup t.baby_steps (trunc (compress (2 * (gamma + i • t.giant_step)))) with
          | some j =>
              if gamma + i • t.giant_step = ((j : ℕ) : Pt)
              then some ((batch_start + i) * t.m + j) else none
          | none => none) with
      | some x => some x
      | none => TruncatedBabyStepGiantStepK.solveLoop compress trunc t Kb fuel
          (batch_start + min Kb (t.m - batch_start))
          (gamma + (min Kb (t.m - batch_start)) • t.giant_step)
    else none

/-- `TruncatedBabyStepGiantStepK::solve`: identity returns `0`, otherwise the
batched loop runs with `batch_start = 0` and `gamma = pk`. -/
def TruncatedBabyStepGiantStepK.solve {K : Type*} (compress : Pt → K)
    (trunc : K → ℕ) (t : TruncatedBabyStepGiantStepKTable) (Kb : ℕ) (pk : Pt) :
    Option ℕ :=
  if pk = 0 then some 0
  else TruncatedBabyStepGiantStepK.solveLoop compress trunc t Kb t.m 0 pk

theorem tbsgsCheck_shift {K : Type*} {compress : Pt → K} {trunc : K → ℕ}
    {t : TruncatedBabyStepGiantStepKTable} {Y gamma : Pt} {s : ℕ}
    (hg : gamma = Y + s • t.giant_step) :
    (fun i => match alLookup t.baby_steps
        (trunc (compress (2 * (gamma + i • t.giant_step)))) with
      | some j => if gamma + i • t.giant_step = ((j : ℕ) : Pt)
          then some ((s + i) * t.m + j) else none
      | none => none) =
    (fun i => tbsgsCheck compress trunc t Y (s + i)) := by
  funext i
  rw [hg, nsmul_assemble]
  rfl

theorem tbsgs_solveLoop_none {K : Type*} {compress : Pt → K}
    {trunc : K → ℕ} {t : TruncatedBabyStepGiantStepKTable} {Kb : ℕ} {Y : Pt} :
    ∀ {fuel s : ℕ} {gamma : Pt}, gamma = Y + s • t.giant_step →
    (∀ a, s ≤ a → a < t.m → tbsgsCheck compress trunc t Y a = none) →
    TruncatedBabyStepGiantStepK.solveLoop compress trunc t Kb fuel s gamma = none := by
  intro fuel
  induction fuel with
  | zero => intro s gamma hg h; rfl
  | succ f ih =>
      intro s gamma hg h
      unfold TruncatedBabyStepGiantStepK.solveLoop
      by_cases hs : s < t.m
      · rw [if_pos hs, tbsgsCheck_shift hg]
        have hbatch : (List.range (min Kb (t.m - s))).findSome?
            (fun i => tbsgsCheck compress trunc t Y (s + i)) = none := by
          apply findSome?_range_none
          intro i hi
          exact h (s + i) (by omega) (by omega)
        rw [hbatch]
        exact ih (by rw [hg, nsmul_assemble]) (fun a ha ham => h a (by omega) ham)
      · rw [if_neg hs]

theorem tbsgs_solveLoop_first {K : Type*} {compress : Pt → K}
    {trunc : K → ℕ} {t : TruncatedBabyStepGiantStepKTable} {Kb tg r : ℕ} {Y : Pt}
    (hKb : 1 ≤ Kb) (htg : tg < t.m)
    (h0 : ∀ a, a < tg → tbsgsCheck compress trunc t Y a = none)
    (hs : tbsgsCheck compress trunc t Y tg = some r) :
    ∀ {f s : ℕ} {γ : Pt}, γ = Y + s • t.giant_step → s ≤ tg →
    t.m - s ≤ f →
    TruncatedBabyStepGiantStepK.solveLoop compress trunc t Kb f s γ = some r := by
  intro fuel
  induction fuel with
  | zero => intro s gamma hg hstg hfuel; omega
  | succ f ih =>
      intro s gamma hg hstg hfuel
      have hsm : s < t.m := by omega
      have hb1 : 1 ≤ min Kb (t.m - s) := by omega
      unfold TruncatedBabyStepGiantStepK.solveLoop
      rw [if_pos hsm, tbsgsCheck_shift hg]
      by_cases hin : tg < s + min Kb (t.m - s)
      · have hbatch : (List.range (min Kb (t.m - s))).findSome?
            (fun i => tbsgsCheck compress trunc t Y (s + i)) = some r := by
          apply findSome?_range_first (t := tg - s) (by omega)
          · intro i hi
            exact h0 (s + i) (by omega)
          · have : s + (tg - s) = tg := by omega
            rw [this]
            exact hs
        rw [hbatch]
      · have hbatch : (List.range (min Kb (t.m - s))).findSome?
            (fun i => tbsgsCheck compress trunc t Y (s + i)) = none := by
          apply findSome?_range_none
          intro i hi
          exact h0 (s + i) (by omega)
        rw [hbatch]
        exact ih (by rw [hg, nsmul_assemble]) (by omega) (by omega)

theorem tbsgs_solveLoop_some {K : Type*} {compress : Pt → K}
    {trunc : K → ℕ} {t : TruncatedBabyStepGiantStepKTable} {Kb : ℕ} {Y : Pt} {r : ℕ} :
    ∀ {fuel s : ℕ} {gamma : Pt}, gamma = Y + s • t.giant_step →
    TruncatedBabyStepGiantStepK.solveLoop compress trunc t Kb fuel s gamma = some r →
    ∃ a, s ≤ a ∧ a < t.m ∧ tbsgsCheck compress trunc t Y a = some r := by
  intro fuel
  induction fuel with
  | zero => intro s gamma hg h; cases h
  | succ f ih =>
      intro s gamma hg h
      unfold TruncatedBabyStepGiantStepK.solveLoop at h
      by_cases hsm : s < t.m
      · rw [if_pos hsm, tbsgsCheck_shift hg] at h
        rcases hbatch : (List.range (min Kb (t.m - s))).findSome?
            (fun i => tbsgsCheck compress trunc t Y (s + i)) with _ | x
        · rw [hbatch] at h
          obtain ⟨a, ha1, ha2, hc⟩ := ih (by rw [hg, nsmul_assemble]) h
          exact ⟨a, by omega, ha2, hc⟩
        · rw [hbatch] at h
          obtain ⟨i, hi, hfi⟩ := findSome?_range_some hbatch
          have hrx : r = x := by simpa using h.symm
          exact ⟨s + i, by omega, by omega, by rw [hrx]; exact hfi⟩
      · rw [if_neg hsm] at h
        cases h

theorem tbsgs_generate_inv {K : Type*} [DecidableEq K]
    {compress : Pt → K} {trunc : K → ℕ} {ℓ : ℕ} {t : TruncatedBabyStepGiantStepKTable}
    (h : TruncatedBabyStepGiantStepKTable.generate compress trunc ℓ = some t) :
    1 ≤ ℓ ∧ ℓ ≤ 32 ∧ t.max_num_bits = ℓ ∧ t.m = 2 ^ ((ℓ + 1) / 2) ∧
    t.giant_step = -((2 ^ ((ℓ + 1) / 2) : ℕ) : Pt) ∧
    (∀ i j, i < t.m → j < t.m →
      trunc (compress (2 * ((i : ℕ) : Pt))) = trunc (compress (2 * ((j : ℕ) : Pt))) →
      i = j) ∧
    t.baby_steps = (List.range t.m).map
      (fun j => (trunc (compress (2 * ((j : ℕ) : Pt))), j % 2 ^ 16)) ∧
    ∀ k v, alLookup t.baby_steps k = some v ↔
      ∃ j < t.m, trunc (compress (2 * ((j : ℕ) : Pt))) = k ∧ v = j % 2 ^ 16 := by
  by_cases hc : 1 ≤ ℓ ∧ ℓ ≤ 32
  · unfold TruncatedBabyStepGiantStepKTable.generate at h
    rw [if_pos hc] at h
    rcases hbs : tbsgsInsertAll (fun j => trunc (compress (2 * ((j : ℕ) : Pt))))
        (List.range (2 ^ ((ℓ + 1) / 2))) [] with _ | bs
    · rw [hbs] at h; cases h
    · rw [hbs] at h
      have ht : t = { max_num_bits := ℓ
                      m := 2 ^ ((ℓ + 1) / 2)
                      baby_steps := bs
                      giant_step := -((2 ^ ((ℓ + 1) / 2) : ℕ) : Pt) } :=
        (Option.some.inj h).symm
      subst ht
      have hinjKey : ∀ i j, i < 2 ^ ((ℓ + 1) / 2) → j < 2 ^ ((ℓ + 1) / 2) →
          trunc (compress (2 * ((i : ℕ) : Pt))) = trunc (compress (2 * ((j : ℕ) : Pt))) →
          i = j := by
        intro i j hi hj hk
        by_contra hne
        exact tbsgsInsertAll_some_inj hbs i (List.mem_range.mpr hi) j
          (List.mem_range.mpr hj) hne hk
      obtain ⟨res', hres', hchar⟩ := tbsgsInsertAll_range_some hinjKey
      have hbseq : res' = bs := Option.some.inj (hres'.symm.trans hbs)
      subst hbseq
      have hlist : res' = (List.range (2 ^ ((ℓ + 1) / 2))).map
          (fun j => (trunc (compress (2 * ((j : ℕ) : Pt))), j % 2 ^ 16)) :=
        Option.some.inj ((tbsgsInsertAll_range_list hinjKey).symm.trans hbs).symm
      exact ⟨hc.1, hc.2, rfl, rfl, rfl, hinjKey, hlist, hchar⟩
  · unfold TruncatedBabyStepGiantStepKTable.generate at h
    rw [if_neg hc] at h
    cases h

theorem tbsgs_hhit {K : Type*} {compress : Pt → K} {trunc : K → ℕ} {m : ℕ}
    {bs : List (ℕ × ℕ)}
    (hchar : ∀ k v, alLookup bs k = some v ↔
      ∃ j < m, trunc (compress (2 * ((j : ℕ) : Pt))) = k ∧ v = j % 2 ^ 16) :
    ∀ i, i < m → alLookup bs (trunc (compress (2 * ((i : ℕ) : Pt)))) = some (i % 2 ^ 16) :=
  fun i hi => (hchar _ _).mpr ⟨i, hi, rfl, rfl⟩

theorem tbsgsCheck_eval_some {K : Type*} {compress : Pt → K} {trunc : K → ℕ}
    {t : TruncatedBabyStepGiantStepKTable} {Y : Pt} {a j : ℕ}
    (hlook : alLookup t.baby_steps
      (trunc (compress (2 * (Y + a • t.giant_step)))) = some j) :
    tbsgsCheck compress trunc t Y a =
      if Y + a • t.giant_step = ((j : ℕ) : Pt) then some (a * t.m + j) else none := by
  unfold tbsgsCheck
  rw [hlook]

theorem tbsgsCheck_eval_none {K : Type*} {compress : Pt → K} {trunc : K → ℕ}
    {t : TruncatedBabyStepGiantStepKTable} {Y : Pt} {a : ℕ}
    (hlook : alLookup t.baby_steps
      (trunc (compress (2 * (Y + a • t.giant_step)))) = none) :
    tbsgsCheck compress trunc t Y a = none := by
  unfold tbsgsCheck
  rw [hlook]

theorem tbsgs_core_in {K : Type*} {compress : Pt → K} {trunc : K → ℕ}
    {b m x Kb : ℕ} {bs : List (ℕ × ℕ)}
    (hm16 : m ≤ 2 ^ 16) (hm1 : 1 ≤ m) (hKb : 1 ≤ Kb) (hx : x < m * m)
    (hchar : ∀ k v, alLookup bs k = some v ↔
      ∃ j < m, trunc (compress (2 * ((j : ℕ) : Pt))) = k ∧ v = j % 2 ^ 16) :
    TruncatedBabyStepGiantStepK.solve compress trunc ⟨b, m, bs, -((m : ℕ) : Pt)⟩ Kb
      ((x : ℕ) : Pt) = some x := by
  have hmP : m < P := lt_of_le_of_lt hm16 (lt_trans (by norm_num) two_pow_64_lt_P)
  have hmmP : m * m < P := by
    calc m * m ≤ 2 ^ 16 * 2 ^ 16 := Nat.mul_le_mul hm16 hm16
    _ < P := by decide
  have hxP : x < P := lt_trans hx hmmP
  rcases Nat.eq_zero_or_pos x with rfl | hxpos
  · simp [TruncatedBabyStepGiantStepK.solve]
  · have hY : ((x : ℕ) : Pt) ≠ 0 := by
      rw [Ne, Pt.natCast_eq_zero_iff hxP]; omega
    unfold TruncatedBabyStepGiantStepK.solve
    rw [if_neg hY]
    have hdm : x / m * m + x % m = x := Nat.div_add_mod' x m
    have htg : x / m < m := (Nat.div_lt_iff_lt_mul (by omega)).mpr hx
    have hmod : x % m < m := Nat.mod_lt x (by omega)
    have hYtg : ((x : ℕ) : Pt) +
        (x / m) • (⟨b, m, bs, -((m : ℕ) : Pt)⟩ :
          TruncatedBabyStepGiantStepKTable).giant_step = ((x % m : ℕ) : Pt) := by
      show ((x : ℕ) : Pt) + (x / m) • (-((m : ℕ) : Pt)) = ((x % m : ℕ) : Pt)
      rw [cast_add_nsmul_neg (Nat.div_mul_le_self x m)]
      congr 1
      omega
    have hs : tbsgsCheck compress trunc ⟨b, m, bs, -((m : ℕ) : Pt)⟩
        ((x : ℕ) : Pt) (x / m) = some x := by
      have hlook1 : alLookup bs (trunc (compress (2 * (((x : ℕ) : Pt) +
          (x / m) • (⟨b, m, bs, -((m : ℕ) : Pt)⟩ :
            TruncatedBabyStepGiantStepKTable).giant_step)))) = some (x % m) := by
        rw [hYtg, tbsgs_hhit hchar (x % m) hmod,
          Nat.mod_eq_of_lt (lt_of_lt_of_le hmod hm16)]
      rw [tbsgsCheck_eval_some hlook1, if_pos hYtg]
      show some (x / m * m + x % m) = some x
      rw [hdm]
    have h0 : ∀ a, a < x / m → tbsgsCheck compress trunc ⟨b, m, bs, -((m : ℕ) : Pt)⟩
        ((x : ℕ) : Pt) a = none := by
      intro a ha
      have ham : a * m ≤ x := by
        have h1 : (a + 1) * m ≤ x / m * m := Nat.mul_le_mul_right m (by omega)
        have h2 : x / m * m ≤ x := Nat.div_mul_le_self x m
        have hexp : (a + 1) * m = a * m + m := by ring
        omega
      have hge : a * m + m ≤ x := by
        have h1 : (a + 1) * m ≤ x / m * m := Nat.mul_le_mul_right m (by omega)
        have h2 : x / m * m ≤ x := Nat.div_mul_le_self x m
        have hexp : (a + 1) * m = a * m + m := by ring
        omega
      have hYa : ((x : ℕ) : Pt) +
          a • (⟨b, m, bs, -((m : ℕ) : Pt)⟩ :
            TruncatedBabyStepGiantStepKTable).giant_step = ((x - a * m : ℕ) : Pt) := by
        show ((x : ℕ) : Pt) + a • (-((m : ℕ) : Pt)) = ((x - a * m : ℕ) : Pt)
        rw [cast_add_nsmul_neg ham]
      rcases hlook : alLookup bs (trunc (compress (2 * ((x - a * m : ℕ) : Pt)))) with _ | v
      · exact tbsgsCheck_eval_none (by rw [hYa]; exact hlook)
      · rw [tbsgsCheck_eval_some (by rw [hYa]; exact hlook)]
        obtain ⟨j, hj, hkj, hv⟩ := (hchar _ _).mp hlook
        have hvj : v = j := by rw [hv]; exact Nat.mod_eq_of_lt (lt_of_lt_of_le hj hm16)
        rw [if_neg]
        rw [hYa]
        intro heq
        have := (Pt.natCast_inj (by omega) (by omega)).mp heq
        omega
    have := tbsgs_solveLoop_first hKb htg h0 hs
      (f := m) (s := 0) (γ := ((x : ℕ) : Pt)) (by simp) (Nat.zero_le _)
      (by show m - 0 ≤ m; omega)
    exact this

theorem tbsgs_core_none {K : Type*} {compress : Pt → K} {trunc : K → ℕ}
    {b m x Kb : ℕ} {bs : List (ℕ × ℕ)}
    (hm16 : m ≤ 2 ^ 16) (hm1 : 1 ≤ m) (hxlo : m * m ≤ x) (hxhi : x < P)
    (hchar : ∀ k v, alLookup bs k = some v ↔
      ∃ j < m, trunc (compress (2 * ((j : ℕ) : Pt))) = k ∧ v = j % 2 ^ 16) :
    TruncatedBabyStepGiantStepK.solve compress trunc ⟨b, m, bs, -((m : ℕ) : Pt)⟩ Kb
      ((x : ℕ) : Pt) = none := by
  have hmP : m < P := lt_of_le_of_lt hm16 (lt_trans (by norm_num) two_pow_64_lt_P)
  have hY : ((x : ℕ) : Pt) ≠ 0 := by
    rw [Ne, Pt.natCast_eq_zero_iff hxhi]
    nlinarith
  unfold TruncatedBabyStepGiantStepK.solve
  rw [if_neg hY]
  apply tbsgs_solveLoop_none (Y := ((x : ℕ) : Pt)) (by simp)
  intro a ha0 ham
  have hkm : a * m ≤ x := by nlinarith
  have hkm' : a * m + m ≤ x := by nlinarith
  have hYa : ((x : ℕ) : Pt) +
      a • (⟨b, m, bs, -((m : ℕ) : Pt)⟩ :
        TruncatedBabyStepGiantStepKTable).giant_step = ((x - a * m : ℕ) : Pt) := by
    show ((x : ℕ) : Pt) + a • (-((m : ℕ) : Pt)) = ((x - a * m : ℕ) : Pt)
    rw [cast_add_nsmul_neg hkm]
  rcases hlook : alLookup bs (trunc (compress (2 * ((x - a * m : ℕ) : Pt)))) with _ | v
  · exact tbsgsCheck_eval_none (by rw [hYa]; exact hlook)
  · rw [tbsgsCheck_eval_some (by rw [hYa]; exact hlook)]
    obtain ⟨j, hj, hkj, hv⟩ := (hchar _ _).mp hlook
    have hvj : v = j := by rw [hv]; exact Nat.mod_eq_of_lt (lt_of_lt_of_le hj hm16)
    rw [if_neg]
    rw [hYa]
    intro heq
    have := (Pt.natCast_inj (by omega) (by omega)).mp heq
    omega

theorem tbsgs_core_sound {K : Type*} {compress : Pt → K} {trunc : K → ℕ}
    {b m Kb : ℕ} {bs : List (ℕ × ℕ)} {Y : Pt} {r : ℕ}
    (h : TruncatedBabyStepGiantStepK.solve compress trunc ⟨b, m, bs, -((m : ℕ) : Pt)⟩ Kb
      Y = some r) :
    ((r : ℕ) : Pt) = Y := by
  unfold TruncatedBabyStepGiantStepK.solve at h
  by_cases hY : Y = 0
  · rw [if_pos hY] at h
    have : r = 0 := by simpa using h.symm
    subst this
    simp [hY]
  · rw [if_neg hY] at h
    obtain ⟨a, ha0, ham, hc⟩ :=
      tbsgs_solveLoop_some (Y := Y) (by simp) h
    rcases hlook : alLookup bs
        (trunc (compress (2 * (Y + a • (⟨b, m, bs, -((m : ℕ) : Pt)⟩ :
          TruncatedBabyStepGiantStepKTable).giant_step)))) with _ | j
    · rw [tbsgsCheck_eval_none hlook] at hc
      cases hc
    · rw [tbsgsCheck_eval_some hlook] at hc
      by_cases hver : Y + a • (⟨b, m, bs, -((m : ℕ) : Pt)⟩ :
          TruncatedBabyStepGiantStepKTable).giant_step = ((j : ℕ) : Pt)
      · rw [if_pos hver] at hc
        have hr : r = a * m + j := by simpa using hc.symm
        have hstep : a • (⟨b, m, bs, -((m : ℕ) : Pt)⟩ :
            TruncatedBabyStepGiantStepKTable).giant_step = -((a * m : ℕ) : Pt) := by
          show a • (-((m : ℕ) : Pt)) = -((a * m : ℕ) : Pt)
          exact nsmul_neg_cast a m
        rw [hstep] at hver
        rw [hr]
        push_cast
        push_cast at hver
        linear_combination -hver
      · rw [if_neg hver] at hc
        cases hc

/-! ## Naive truncated doubled lookup
(`src/naive_truncated_doubled_lookup/mod.rs`): a read-only adapter over a
TBSGS-k table -/

/-- `NaiveTruncatedDoubledLookup::solve`: double, compress, truncate, look
up; on a hit with value `j` verify `y = j·g` and treat a mismatch (a
truncation false positive) as "no solution in range". -/
def NaiveTruncatedDoubledLookup.solve {K : Type*} (compress : Pt → K)
    (trunc : K → ℕ) (t : TruncatedBabyStepGiantStepKTable) (y : Pt) : Option ℕ :=
  match alLookup t.baby_steps (trunc (compress (y + y))) with
  | some j => if y = ((j : ℕ) : Pt) then some j else none
  | none => none

/-- `NaiveTruncatedDoubledLookup::new_and_compute_table`: generates a TBSGS-k
table for `2·ℓ` bits. -/
def NaiveTruncatedDoubledLookup.new_and_compute_table {K : Type*} [DecidableEq K]
    (compress : Pt → K) (trunc : K → ℕ) (max_num_bits : ℕ) :
    Option TruncatedBabyStepGiantStepKTable :=
  TruncatedBabyStepGiantStepKTable.generate compress trunc (max_num_bits * 2)

theorem ntdl_eval_some {K : Type*} {compress : Pt → K} {trunc : K → ℕ}
    {t : TruncatedBabyStepGiantStepKTable} {y : Pt} {j : ℕ}
    (hlook : alLookup t.baby_steps (trunc (compress (y + y))) = some j) :
    NaiveTruncatedDoubledLookup.solve compress trunc t y =
      if y = ((j : ℕ) : Pt) then some j else none := by
  unfold NaiveTruncatedDoubledLookup.solve
  rw [hlook]

theorem ntdl_eval_none {K : Type*} {compress : Pt → K} {trunc : K → ℕ}
    {t : TruncatedBabyStepGiantStepKTable} {y : Pt}
    (hlook : alLookup t.baby_steps (trunc (compress (y + y))) = none) :
    NaiveTruncatedDoubledLookup.solve compress trunc t y = none := by
  unfold NaiveTruncatedDoubledLookup.solve
  rw [hlook]

theorem ntdl_core_in {K : Type*} {compress : Pt → K} {trunc : K → ℕ}
    {b m x : ℕ} {bs : List (ℕ × ℕ)} {gs : Pt}
    (hm16 : m ≤ 2 ^ 16) (hx : x < m)
    (hchar : ∀ k v, alLookup bs k = some v ↔
      ∃ j < m, trunc (compress (2 * ((j : ℕ) : Pt))) = k ∧ v = j % 2 ^ 16) :
    NaiveTruncatedDoubledLookup.solve compress trunc ⟨b, m, bs, gs⟩
      ((x : ℕ) : Pt) = some x := by
  have hdd : ((x : ℕ) : Pt) + ((x : ℕ) : Pt) = 2 * ((x : ℕ) : Pt) := (two_mul _).symm
  have hlook1 : alLookup (⟨b, m, bs, gs⟩ :
      TruncatedBabyStepGiantStepKTable).baby_steps
      (trunc (compress (((x : ℕ) : Pt) + ((x : ℕ) : Pt)))) = some x := by
    show alLookup bs (trunc (compress (((x : ℕ) : Pt) + ((x : ℕ) : Pt)))) = some x
    rw [hdd, tbsgs_hhit hchar x hx, Nat.mod_eq_of_lt (lt_of_lt_of_le hx hm16)]
  rw [ntdl_eval_some hlook1, if_pos rfl]

theorem ntdl_core_none {K : Type*} {compress : Pt → K} {trunc : K → ℕ}
    {b m x : ℕ} {bs : List (ℕ × ℕ)} {gs : Pt}
    (hm16 : m ≤ 2 ^ 16) (hxlo : m ≤ x) (hxhi : x < P)
    (hchar : ∀ k v, alLookup bs k = some v ↔
      ∃ j < m, trunc (compress (2 * ((j : ℕ) : Pt))) = k ∧ v = j % 2 ^ 16) :
    NaiveTruncatedDoubledLookup.solve compress trunc ⟨b, m, bs, gs⟩
      ((x : ℕ) : Pt) = none := by
  have hmP : m < P := lt_of_le_of_lt hm16 (lt_trans (by norm_num) two_pow_64_lt_P)
  have hdd : ((x : ℕ) : Pt) + ((x : ℕ) : Pt) = 2 * ((x : ℕ) : Pt) := (two_mul _).symm
  rcases hlook : alLookup bs (trunc (compress (2 * ((x : ℕ) : Pt)))) with _ | v
  · exact ntdl_eval_none (by show alLookup bs _ = none; rw [hdd]; exact hlook)
  · rw [ntdl_eval_some (by show alLookup bs _ = some v; rw [hdd]; exact hlook)]
    obtain ⟨j, hj, hkj, hv⟩ := (hchar _ _).mp hlook
    have hvj : v = j := by rw [hv]; exact Nat.mod_eq_of_lt (lt_of_lt_of_le hj hm16)
    rw [if_neg]
    intro heq
    have := (Pt.natCast_inj (by omega) (by omega)).mp heq
    omega

theorem ntdl_core_sound {K : Type*} {compress : Pt → K} {trunc : K → ℕ}
    {t : TruncatedBabyStepGiantStepKTable} {Y : Pt} {r : ℕ}
    (h : NaiveTruncatedDoubledLookup.solve compress trunc t Y = some r) :
    ((r : ℕ) : Pt) = Y := by
  rcases hlook : alLookup t.baby_steps (trunc (compress (Y + Y))) with _ | j
  · rw [ntdl_eval_none hlook] at h
    cases h
  · rw [ntdl_eval_some hlook] at h
    by_cases hver : Y = ((j : ℕ) : Pt)
    · rw [if_pos hver] at h
      have : r = j := by simpa using h.symm
      subst this
      exact hver.symm
    · rw [if_neg hver] at h
      cases h

/-! ## Compact serialization (`to_bytes` / `from_bytes`)

`bincode` (de)serialization of the compact structs is modelled at the level
of the structs themselves: `to_bytes` produces the
`…TableSerialized` value that is encoded (ℓ, `m`, the length-`m` ordered key
array with implicit indices, and the giant step), and `from_bytes` is the
decoder applied to such a value (corrupted byte strings are out of scope of
the claims below, which only concern round-trips). -/

structure BabyStepGiantStepTableSerialized (K : Type*) where
  max_num_bits : ℕ
  m : ℕ
  baby_steps : List K
  giant_step : Pt

/-- `BabyStepGiantStepTable::to_bytes`: list the map's `(value, key)` pairs,
sort by value (`sort_by_key`), and keep the keys in that order. -/
def BabyStepGiantStepTable.to_bytes {K : Type*} [DecidableEq K]
    (t : BabyStepGiantStepTable K) : BabyStepGiantStepTableSerialized K :=
  { max_num_bits := t.max_num_bits
    m := t.m
    baby_steps := ((t.baby_steps.map (fun e => (e.2, e.1))).mergeSort
      (fun a b => a.1 ≤ b.1)).map (fun e => e.2)
    giant_step := t.giant_step }

/-- `BabyStepGiantStepTable::from_bytes`: rebuild the map by inserting
`point ↦ index as u16` over the enumerated key array. -/
def BabyStepGiantStepTable.from_bytes {K : Type*} [DecidableEq K]
    (s : BabyStepGiantStepTableSerialized K) : BabyStepGiantStepTable K :=
  { max_num_bits := s.max_num_bits
    m := s.m
    baby_steps := s.baby_steps.enum.foldl (fun l e => alInsert l e.2 (e.1 % 2 ^ 16)) []
    giant_step := s.giant_step }

structure TruncatedBabyStepGiantStepKTableSerialized where
  max_num_bits : ℕ
  m : ℕ
  truncated_keys : List ℕ
  giant_step : Pt

/-- `TruncatedBabyStepGiantStepKTable::to_bytes`: `(value, truncated key)`
pairs sorted by value, keys kept in that order. -/
def TruncatedBabyStepGiantStepKTable.to_bytes
    (t : TruncatedBabyStepGiantStepKTable) : TruncatedBabyStepGiantStepKTableSerialized :=
  { max_num_bits := t.max_num_bits
    m := t.m
    truncated_keys := ((t.baby_steps.map (fun e => (e.2, e.1))).mergeSort
      (fun a b => a.1 ≤ b.1)).map (fun e => e.2)
    giant_step := t.giant_step }

/-- `TruncatedBabyStepGiantStepKTable::from_bytes`: rebuild the map by
inserting `truncated key ↦ index as u16` over the enumerated key array. -/
def TruncatedBabyStepGiantStepKTable.from_bytes
    (s : TruncatedBabyStepGiantStepKTableSerialized) : TruncatedBabyStepGiantStepKTable :=
  { max_num_bits := s.max_num_bits
    m := s.m
    baby_steps := s.truncated_keys.enum.foldl (fun l e => alInsert l e.2 (e.1 % 2 ^ 16)) []
    giant_step := s.giant_step }

theorem mergeSort_byFst_range {K : Type*} (f : ℕ → K) (m : ℕ) :
    ((List.range m).map (fun j => (j, f j))).mergeSort
      (fun a b => a.1 ≤ b.1) = (List.range m).map (fun j => (j, f j)) := by
  have htrans : ∀ (a b c : ℕ × K), decide (a.1 ≤ b.1) = true →
      decide (b.1 ≤ c.1) = true → decide (a.1 ≤ c.1) = true := by
    intro a b c h1 h2
    simp only [decide_eq_true_eq] at h1 h2 ⊢
    omega
  have htotal : ∀ (a b : ℕ × K), (decide (a.1 ≤ b.1) || decide (b.1 ≤ a.1)) = true := by
    intro a b
    rcases Nat.le_total a.1 b.1 with h | h <;> simp [h]
  have hperm := List.mergeSort_perm ((List.range m).map (fun j => (j, f j)))
    (fun a b => decide (a.1 ≤ b.1))
  have hsorted : List.Pairwise (fun (a b : ℕ × K) => a.1 ≤ b.1)
      (((List.range m).map (fun j => (j, f j))).mergeSort
        (fun a b => decide (a.1 ≤ b.1))) :=
    (List.sorted_mergeSort htrans htotal _).imp (by
      intro a b h
      simpa using h)
  have hlt : List.Pairwise (fun (a b : ℕ × K) => a.1 < b.1)
      ((List.range m).map (fun j => (j, f j))) := by
    apply List.Pairwise.map
    · intro a b h
      exact h
    · exact List.pairwise_lt_range m
  have hne : List.Pairwise (fun (a b : ℕ × K) => a.1 ≠ b.1)
      (((List.range m).map (fun j => (j, f j))).mergeSort
        (fun a b => decide (a.1 ≤ b.1))) := by
    rw [List.Perm.pairwise_iff (fun h => Ne.symm h) hperm]
    · exact hlt.imp (fun h => Nat.ne_of_lt h)
  have hout : List.Pairwise (fun (a b : ℕ × K) => a.1 < b.1)
      (((List.range m).map (fun j => (j, f j))).mergeSort
        (fun a b => decide (a.1 ≤ b.1))) :=
    (hsorted.and hne).imp (fun h => by omega)
  haveI : IsAntisymm (ℕ × K) (fun a b => a.1 < b.1) :=
    ⟨fun a b h1 h2 => absurd (lt_trans h1 h2) (lt_irrefl _)⟩
  exact List.eq_of_perm_of_sorted hperm hout hlt

theorem enum_map_range {K : Type*} (f : ℕ → K) (m : ℕ) :
    ((List.range m).map f).enum = (List.range m).map (fun j => (j, f j)) := by
  rw [List.enum_eq_zip_range, List.length_map, List.length_range]
  calc (List.range m).zip ((List.range m).map f)
      = ((List.range m).map id).zip ((List.range m).map f) := by rw [List.map_id]
    _ = (List.range m).map (fun j => (id j, f j)) := List.zip_map' id f _
    _ = (List.range m).map (fun j => (j, f j)) := rfl

/-- Round-trip at the level of the stored association list: serializing the
generated table's list (whose entry `j` is `(key j, j as u16)`) and decoding
rebuilds exactly that list. -/
theorem serialized_list_roundtrip {K : Type*} [DecidableEq K]
    (key : ℕ → K) (m : ℕ) (hm : m ≤ 2 ^ 16)
    (hinj : ∀ i j, i < m → j < m → key i = key j → i = j) :
    ((((buildTable key (fun j => j % 2 ^ 16) m).map
        (fun e => (e.2, e.1))).mergeSort
      (fun a b => a.1 ≤ b.1)).map (fun e => e.2)).enum.foldl
      (fun l e => alInsert l e.2 (e.1 % 2 ^ 16)) [] =
    buildTable key (fun j => j % 2 ^ 16) m := by
  rw [buildTable_eq_map hinj]
  have hswap : (((List.range m).map (fun j => (key j, j % 2 ^ 16))).map
      (fun e => (e.2, e.1))) = (List.range m).map (fun j => (j, key j)) := by
    rw [List.map_map]
    apply List.map_congr_left
    intro j hj
    have hjm : j < m := List.mem_range.mp hj
    show (j % 2 ^ 16, key j) = (j, key j)
    rw [Nat.mod_eq_of_lt (by omega)]
  rw [hswap, mergeSort_byFst_range]
  have hsnd : ((List.range m).map (fun j => (j, key j))).map (fun e => e.2) =
      (List.range m).map key := by
    rw [List.map_map]
    rfl
  rw [hsnd, enum_map_range, List.foldl_map]
  show buildTable key (fun j => j % 2 ^ 16) m = _
  rw [buildTable_eq_map hinj]

/-! ## BL12 (`src/bl12/mod.rs`), the Bernstein-Lange 2012 solver

The last-8-bytes-as-big-endian-u64 view of a compressed point
(`get_last_point_bytes`) is modelled by an abstract function
`lastU64 : K → ℕ`. -/

/-- `Parameters` of the BL12 algorithm. -/
structure Parameters where
  i : ℕ
  W : ℕ
  N : ℕ
  R : ℕ
  secret_size : ℕ

/-- `Table`: step points `s`, step scalars `slog`, and the
distinguished-point map `table` (compressed point ↦ its discrete log). -/
structure Bl12Table (K : Type*) where
  s : List Pt
  slog : List (ZMod P)
  table : List (K × ZMod P)
  deriving DecidableEq

/-- `is_distinguished`: the last-8-bytes value ANDed with `W - 1` is zero. -/
def is_distinguished {K : Type*} (lastU64 : K → ℕ) (c : K) (pr : Parameters) : Prop :=
  Nat.land (lastU64 c) (pr.W - 1) = 0

instance {K : Type*} (lastU64 : K → ℕ) (c : K) (pr : Parameters) :
    Decidable (is_distinguished lastU64 c pr) := by
  unfold is_distinguished
  infer_instance

/-- The step-index function (called `hash` in the source, after the
reference implementation): the last-8-bytes value ANDed with `R - 1`. -/
def bl12Hash {K : Type*} (lastU64 : K → ℕ) (c : K) (pr : Parameters) : ℕ :=
  Nat.land (lastU64 c) (pr.R - 1)

/-- `scalar_to_u64`: reads the low 8 bytes of the canonical little-endian
encoding of a scalar, i.e. its canonical value mod `2^64` ("only valid for
scalars < 2^64"). -/
def scalar_to_u64 (a : ZMod P) : ℕ := a.val % 2 ^ 64

/-- The `slog_size` computation of `Table::s_values_init`: for ℓ < 8 it is
`max(ℓ, 1)`; otherwise `ratio = (2^min(ℓ,62) / 4) / max(W, 1)` and the size
is `max(ilog2 ratio, 1)` when `ratio > 0`, else `1`. -/
def slog_size (pr : Parameters) : ℕ :=
  if pr.secret_size < 8 then max pr.secret_size 1
  else
    let q := 2 ^ min pr.secret_size 62 / 4 / max pr.W 1
    if q > 0 then max (Nat.log2 q) 1 else 1

/-- `Table::s_values_init`: draws `R` random scalars of `slog_size` bits,
adds one to each (step scalars in `[1, 2^slog_size]`), and pairs each with
its step point `slog·g`.  The draw errors (for the whole loop alike) exactly
when `slog_size > 64`. -/
def Table.s_values_init (pr : Parameters) (rng : ℕ → ℕ) :
    Option (List (ZMod P) × List Pt) :=
  if slog_size pr > 64 then none
  else some
    ((List.range pr.R).map
        (fun h => ((rng h % 2 ^ slog_size pr : ℕ) : ZMod P) + 1),
      (List.range pr.R).map
        (fun h => mulG (((rng h % 2 ^ slog_size pr : ℕ) : ZMod P) + 1)))

/-- One table-generation walk (the inner `for _ in 0..i*W` loop of
`Table::generate`): starting from a known-log point, step by the indexed
step scalar/point until a distinguished point is found (insert it, mapped to
its accumulated log) or the iteration budget runs out.  Source indexing
`slog[h]` / `s[h]` is in bounds because `h = lastU64 & (R-1) < R` and both
vectors have length `R`; the model uses `getD` with default `0`. -/
def Table.genWalk {K : Type*} [DecidableEq K] (compress : Pt → K) (lastU64 : K → ℕ)
    (pr : Parameters) (slog : List (ZMod P)) (s : List Pt) :
    ℕ → ZMod P → Pt → List (K × ZMod P) → List (K × ZMod P)
  | 0, _, _, acc => acc
  | fuel + 1, wlog, w, acc =>
    if is_distinguished lastU64 (compress w) pr then alInsert acc (compress w) wlog
    else Table.genWalk compress lastU64 pr slog s fuel
      (wlog + slog.getD (bl12Hash lastU64 (compress w) pr) 0)
      (w + s.getD (bl12Hash lastU64 (compress w) pr) 0)
      acc

/-- The `while table.len() < N` loop of `Table::generate`: each attempt
draws a fresh `wlog` uniformly in `[0, 2^ℓ)` and runs one walk from
`wlog·g`; `fuel` is the remaining attempt budget (`N * 1000` initially —
running out models the "give up" break).  `idx` indexes the random stream. -/
def Table.genLoop {K : Type*} [DecidableEq K] (compress : Pt → K) (lastU64 : K → ℕ)
    (pr : Parameters) (slog : List (ZMod P)) (s : List Pt) (rng : ℕ → ℕ) :
    ℕ → ℕ → List (K × ZMod P) → List (K × ZMod P)
  | 0, _, acc => acc
  | fuel + 1, idx, acc =>
    if acc.length < pr.N then
      Table.genLoop compress lastU64 pr slog s rng fuel (idx + 1)
        (Table.genWalk compress lastU64 pr slog s (pr.i * pr.W)
          ((rng idx % 2 ^ pr.secret_size : ℕ) : ZMod P)
          (mulG ((rng idx % 2 ^ pr.secret_size : ℕ) : ZMod P)) acc)
    else acc

/-- `Table::generate`: rejects `secret_size ∉ [1, 64]`, initializes the step
scalars/points, and collects distinguished points.  The random draws of
`s_values_init` use stream indices `0, …, R-1` and each attempt's `wlog`
draw the following indices. -/
def Table.generate {K : Type*} [DecidableEq K] (compress : Pt → K) (lastU64 : K → ℕ)
    (pr : Parameters) (rng : ℕ → ℕ) : Option (Bl12Table K) :=
  if pr.secret_size < 1 ∨ pr.secret_size > 64 then none
  else
    match Table.s_values_init pr rng with
    | none => none
    | some (slog, s) =>
        some { s := s
               slog := slog
               table := Table.genLoop compress lastU64 pr slog s rng
                 (pr.N * 1000) pr.R [] }

/-- One solve walk (the inner loop of `Bl12::solve_dlp`): from
`w = pk + wdist·g`, step until a distinguished point; on a table hit with
value `v` the answer scalar is `sk = v - wdist`, the source `assert!`s
`sk·g = pk` and returns `scalar_to_u64(sk)`.  A distinguished point missing
from the table breaks back to the outer loop (`none`); a failed assertion
aborts the program, which the model also reports as no answer from this
walk — no theorem below relies on behaviour after a failed assertion.  The
timeout branch is not modelled (`max_time = None`). -/
def Bl12.solveWalk {K : Type*} [DecidableEq K] (compress : Pt → K) (lastU64 : K → ℕ)
    (pr : Parameters) (tbl : Bl12Table K) (pk : Pt) :
    ℕ → ZMod P → Pt → Option ℕ
  | 0, _, _ => none
  | fuel + 1, wdist, w =>
    if is_distinguished lastU64 (compress w) pr then
      match alLookup tbl.table (compress w) with
      | some v =>
          if mulG (v - wdist) = pk then some (scalar_to_u64 (v - wdist)) else none
      | none => none
    else Bl12.solveWalk compress lastU64 pr tbl pk fuel
      (wdist + tbl.slog.getD (bl12Hash lastU64 (compress w) pr) 0)
      (w + tbl.s.getD (bl12Hash lastU64 (compress w) pr) 0)

/-- The outer retry loop of `Bl12::solve_dlp`: each round draws `wdist`
uniformly in `[0, 2^max(ℓ-8,1))` and walks from `pk + wdist·g`.  Without a
timeout the source loops forever; `fuel` bounds the number of restarts in
the model (`none` = no answer within `fuel` restarts). -/
def Bl12.solveLoop {K : Type*} [DecidableEq K] (compress : Pt → K) (lastU64 : K → ℕ)
    (pr : Parameters) (tbl : Bl12Table K) (rng : ℕ → ℕ) (pk : Pt) :
    ℕ → ℕ → Option ℕ
  | 0, _ => none
  | fuel + 1, idx =>
    match Bl12.solveWalk compress lastU64 pr tbl pk (pr.i * pr.W)
        ((rng idx % 2 ^ max (pr.secret_size - 8) 1 : ℕ) : ZMod P)
        (pk + mulG ((rng idx % 2 ^ max (pr.secret_size - 8) 1 : ℕ) : ZMod P)) with
    | some x => some x
    | none => Bl12.solveLoop compress lastU64 pr tbl rng pk fuel (idx + 1)

/-- `Bl12::solve_dlp` (with `max_time = None`): the identity input returns
`Ok(Some(0))` before any randomness; otherwise the retry loop runs. -/
def Bl12.solve_dlp {K : Type*} [DecidableEq K] (compress : Pt → K) (lastU64 : K → ℕ)
    (pr : Parameters) (tbl : Bl12Table K) (rng : ℕ → ℕ) (pk : Pt) (fuel : ℕ) :
    Option ℕ :=
  if pk = 0 then some 0
  else Bl12.solveLoop compress lastU64 pr tbl rng pk fuel 0

/-! ## `utils::generate_random_scalar`, byte-level model -/

/-- The 32-byte buffer built by `generate_random_scalar`: the first
`(bits + 7) / 8` bytes are random (`rb i` models the OS RNG byte stream),
the top partial byte is masked with `(1 << (bits & 7)) - 1` when `bits` is
not a multiple of 8, and all remaining bytes stay zero. -/
def grsKeyByte (bits : ℕ) (rb : ℕ → ℕ) (i : ℕ) : ℕ :=
  let lastByte := (bits + 7) / 8
  let b := if i < lastByte then rb i % 256 else 0
  if bits % 8 ≠ 0 ∧ i = lastByte - 1 then Nat.land b (2 ^ (bits % 8) - 1) else b

/-- The integer value of the 32-byte little-endian buffer. -/
def grsValue (bits : ℕ) (rb : ℕ → ℕ) : ℕ :=
  ∑ i ∈ Finset.range 32, grsKeyByte bits rb i * 256 ^ i

/-- `utils::generate_random_scalar`: rejects `bits > 64`, fills the buffer,
and runs `Scalar::from_canonical_bytes`, which succeeds exactly when the
little-endian value is below the group order. -/
def generate_random_scalar (bits : ℕ) (rb : ℕ → ℕ) : Option (ZMod P) :=
  if bits > 64 then none
  else if grsValue bits rb < P then some ((grsValue bits rb : ℕ) : ZMod P)
  else none

/-! ## BL12 properties -/

theorem Table.genWalk_keys {K : Type*} [DecidableEq K] {compress : Pt → K}
    {lastU64 : K → ℕ} {pr : Parameters} {slog : List (ZMod P)} {s : List Pt} :
    ∀ {fuel : ℕ} {wlog : ZMod P} {w : Pt} {acc : List (K × ZMod P)},
    (∀ e ∈ acc, Nat.land (lastU64 e.1) (pr.W - 1) = 0) →
    ∀ e ∈ Table.genWalk compress lastU64 pr slog s fuel wlog w acc,
      Nat.land (lastU64 e.1) (pr.W - 1) = 0 := by
  intro fuel
  induction fuel with
  | zero => intro wlog w acc hacc e he; exact hacc e he
  | succ f ih =>
      intro wlog w acc hacc e he
      unfold Table.genWalk at he
      by_cases hd : is_distinguished lastU64 (compress w) pr
      · rw [if_pos hd] at he
        rcases alInsert_keys he with hk | hk
        · rw [hk]; exact hd
        · exact hacc e hk
      · rw [if_neg hd] at he
        exact ih hacc e he

theorem Table.genLoop_keys {K : Type*} [DecidableEq K] {compress : Pt → K}
    {lastU64 : K → ℕ} {pr : Parameters} {slog : List (ZMod P)} {s : List Pt}
    {rng : ℕ → ℕ} :
    ∀ {fuel idx : ℕ} {acc : List (K × ZMod P)},
    (∀ e ∈ acc, Nat.land (lastU64 e.1) (pr.W - 1) = 0) →
    ∀ e ∈ Table.genLoop compress lastU64 pr slog s rng fuel idx acc,
      Nat.land (lastU64 e.1) (pr.W - 1) = 0 := by
  intro fuel
  induction fuel with
  | zero => intro idx acc hacc e he; exact hacc e he
  | succ f ih =>
      intro idx acc hacc e he
      unfold Table.genLoop at he
      by_cases hlen : acc.length < pr.N
      · rw [if_pos hlen] at he
        exact ih (Table.genWalk_keys hacc) e he
      · rw [if_neg hlen] at he
        exact hacc e he

/-- Every key of a generated BL12 table satisfies the distinguishing
predicate against the table's own `W`. -/
theorem Table.generate_keys {K : Type*} [DecidableEq K] {compress : Pt → K}
    {lastU64 : K → ℕ} {pr : Parameters} {rng : ℕ → ℕ} {tbl : Bl12Table K}
    (h : Table.generate compress lastU64 pr rng = some tbl) :
    ∀ e ∈ tbl.table, Nat.land (lastU64 e.1) (pr.W - 1) = 0 := by
  unfold Table.generate at h
  by_cases hc : pr.secret_size < 1 ∨ pr.secret_size > 64
  · rw [if_pos hc] at h; cases h
  · rw [if_neg hc] at h
    rcases hsv : Table.s_values_init pr rng with _ | sv
    · rw [hsv] at h; cases h
    · rw [hsv] at h
      obtain ⟨slog, s⟩ := sv
      have ht : tbl = Bl12Table.mk s slog
          (Table.genLoop compress lastU64 pr slog s rng (pr.N * 1000) pr.R []) :=
        (Option.some.inj h).symm
      subst ht
      intro e he
      exact Table.genLoop_keys (by intro e' he'; cases he') e he

theorem Bl12.solveWalk_val {K : Type*} [DecidableEq K] {compress : Pt → K}
    {lastU64 : K → ℕ} {pr : Parameters} {tbl : Bl12Table K} {pk : Pt} {x : ℕ} :
    ∀ {fuel : ℕ} {wdist : ZMod P} {w : Pt},
    Bl12.solveWalk compress lastU64 pr tbl pk fuel wdist w = some x →
    x = pk.val % 2 ^ 64 := by
  intro fuel
  induction fuel with
  | zero => intro wdist w h; cases h
  | succ f ih =>
      intro wdist w h
      unfold Bl12.solveWalk at h
      by_cases hd : is_distinguished lastU64 (compress w) pr
      · rw [if_pos hd] at h
        rcases hl : alLookup tbl.table (compress w) with _ | v
        · rw [hl] at h
          exact Option.noConfusion h
        · rw [hl] at h
          have h2 : (if mulG (v - wdist) = pk then
              some (scalar_to_u64 (v - wdist)) else none) = some x := h
          by_cases hass : mulG (v - wdist) = pk
          · rw [if_pos hass] at h2
            have hx : x = scalar_to_u64 (v - wdist) := by simpa using h2.symm
            rw [hx]
            unfold scalar_to_u64
            rw [show v - wdist = pk from hass]
          · rw [if_neg hass] at h2
            cases h2
      · rw [if_neg hd] at h
        exact ih h

theorem Bl12.solveLoop_val {K : Type*} [DecidableEq K] {compress : Pt → K}
    {lastU64 : K → ℕ} {pr : Parameters} {tbl : Bl12Table K} {rng : ℕ → ℕ}
    {pk : Pt} {x : ℕ} :
    ∀ {fuel idx : ℕ},
    Bl12.solveLoop compress lastU64 pr tbl rng pk fuel idx = some x →
    x = pk.val % 2 ^ 64 := by
  intro fuel
  induction fuel with
  | zero => intro idx h; cases h
  | succ f ih =>
      intro idx h
      unfold Bl12.solveLoop at h
      rcases hw : Bl12.solveWalk compress lastU64 pr tbl pk (pr.i * pr.W)
          ((rng idx % 2 ^ max (pr.secret_size - 8) 1 : ℕ) : ZMod P)
          (pk + mulG ((rng idx % 2 ^ max (pr.secret_size - 8) 1 : ℕ) : ZMod P)) with _ | y
      · rw [hw] at h
        exact ih h
      · rw [hw] at h
        have : x = y := by simpa using h.symm
        rw [this]
        exact Bl12.solveWalk_val hw

/-- Whatever BL12's solver returns is the canonical discrete log of the
input reduced modulo `2^64` (the `scalar_to_u64` truncation). -/
theorem Bl12.solve_dlp_val {K : Type*} [DecidableEq K] {compress : Pt → K}
    {lastU64 : K → ℕ} {pr : Parameters} {tbl : Bl12Table K} {rng : ℕ → ℕ}
    {pk : Pt} {x fuel : ℕ}
    (h : Bl12.solve_dlp compress lastU64 pr tbl rng pk fuel = some x) :
    x = pk.val % 2 ^ 64 := by
  unfold Bl12.solve_dlp at h
  by_cases h0 : pk = 0
  · rw [if_pos h0] at h
    have : x = 0 := by simpa using h.symm
    rw [this, h0]
    rw [show (0 : Pt).val = 0 from ZMod.val_zero]
    norm_num
  · rw [if_neg h0] at h
    exact Bl12.solveLoop_val h

/-! ## `generate_random_scalar` properties -/

theorem grsKeyByte_lt_256 (bits : ℕ) (rb : ℕ → ℕ) (i : ℕ) :
    grsKeyByte bits rb i < 256 := by
  unfold grsKeyByte
  by_cases hmask : bits % 8 ≠ 0 ∧ i = (bits + 7) / 8 - 1
  · rw [if_pos hmask]
    have h1 : Nat.land (if i < (bits + 7) / 8 then rb i % 256 else 0)
        (2 ^ (bits % 8) - 1) ≤ 2 ^ (bits % 8) - 1 := Nat.and_le_right
    have h2 : 2 ^ (bits % 8) ≤ 2 ^ 8 := Nat.pow_le_pow_right (by norm_num) (by omega)
    omega
  · rw [if_neg hmask]
    by_cases hi : i < (bits + 7) / 8
    · rw [if_pos hi]; exact Nat.mod_lt _ (by norm_num)
    · rw [if_neg hi]; norm_num

theorem grsKeyByte_zero_of_ge (bits : ℕ) (rb : ℕ → ℕ) {i : ℕ}
    (hi : (bits + 7) / 8 ≤ i) : grsKeyByte bits rb i = 0 := by
  unfold grsKeyByte
  by_cases hmask : bits % 8 ≠ 0 ∧ i = (bits + 7) / 8 - 1
  · exfalso
    have hb : bits % 8 ≠ 0 := hmask.1
    have : 1 ≤ (bits + 7) / 8 := by omega
    omega
  · rw [if_neg hmask, if_neg (by omega)]

theorem grsKeyByte_top (bits : ℕ) (rb : ℕ → ℕ) (hb : bits % 8 ≠ 0) :
    grsKeyByte bits rb ((bits + 7) / 8 - 1) < 2 ^ (bits % 8) := by
  unfold grsKeyByte
  rw [if_pos ⟨hb, rfl⟩]
  have h1 : Nat.land (if (bits + 7) / 8 - 1 < (bits + 7) / 8 then
      rb ((bits + 7) / 8 - 1) % 256 else 0) (2 ^ (bits % 8) - 1) ≤ 2 ^ (bits % 8) - 1 :=
    Nat.and_le_right
  have h2 : 0 < 2 ^ (bits % 8) := Nat.pos_pow_of_pos _ (by norm_num)
  omega

theorem bytes_sum_all_lt {b : ℕ → ℕ} :
    ∀ {n : ℕ}, (∀ i, i < n → b i < 256) →
    ∑ i ∈ Finset.range n, b i * 256 ^ i < 256 ^ n := by
  intro n
  induction n with
  | zero => intro _; norm_num
  | succ n ih =>
      intro hb
      rw [Finset.sum_range_succ]
      have h1 := ih (fun i hi => hb i (by omega))
      have h2 : b n ≤ 255 := by have := hb n (by omega); omega
      have h3 : b n * 256 ^ n ≤ 255 * 256 ^ n := Nat.mul_le_mul_right _ h2
      have h4 : (256 : ℕ) ^ (n + 1) = 256 * 256 ^ n := by ring
      omega

theorem bytes_sum_lt {b : ℕ → ℕ} {q m c : ℕ} (hq : q < m)
    (hb : ∀ i, i < q → b i < 256) (htop : b q < c)
    (hz : ∀ i, q < i → b i = 0) (hc : 1 ≤ c) :
    ∑ i ∈ Finset.range m, b i * 256 ^ i < c * 256 ^ q := by
  have hsum : ∑ i ∈ Finset.range m, b i * 256 ^ i =
      ∑ i ∈ Finset.range (q + 1), b i * 256 ^ i := by
    symm
    apply Finset.sum_subset
    · intro i hi
      rw [Finset.mem_range] at hi ⊢
      omega
    · intro i hi hni
      rw [Finset.mem_range] at hi
      rw [Finset.mem_range] at hni
      rw [hz i (by omega)]
      ring
  rw [hsum, Finset.sum_range_succ]
  have h1 := bytes_sum_all_lt hb
  have h2 : b q * 256 ^ q ≤ (c - 1) * 256 ^ q := Nat.mul_le_mul_right _ (by omega)
  have h3 : 256 ^ q + (c - 1) * 256 ^ q = c * 256 ^ q := by
    have hcc : c - 1 + 1 = c := by omega
    calc 256 ^ q + (c - 1) * 256 ^ q = (c - 1 + 1) * 256 ^ q := by ring
      _ = c * 256 ^ q := by rw [hcc]
  omega

theorem grsValue_lt (bits : ℕ) (rb : ℕ → ℕ) (hb : bits ≤ 64) :
    grsValue bits rb < 2 ^ bits := by
  rcases Nat.eq_zero_or_pos bits with rfl | hpos
  · have hzv : grsValue 0 rb = 0 := by
      unfold grsValue
      apply Finset.sum_eq_zero
      intro i hi
      rw [grsKeyByte_zero_of_ge 0 rb (by omega)]
      ring
    rw [hzv]
    norm_num
  · unfold grsValue
    by_cases hm : bits % 8 = 0
    · have hlb : (bits + 7) / 8 = bits / 8 := by omega
      have hq1 : 1 ≤ bits / 8 := by omega
      have hmain := bytes_sum_lt (b := fun i => grsKeyByte bits rb i)
        (q := bits / 8 - 1) (m := 32) (c := 256) (by omega)
        (fun i hi => grsKeyByte_lt_256 bits rb i)
        (grsKeyByte_lt_256 bits rb _)
        (fun i hi => grsKeyByte_zero_of_ge bits rb (by omega))
        (by norm_num)
      have hpow : 256 * 256 ^ (bits / 8 - 1) = 2 ^ bits := by
        have hqq : bits / 8 - 1 + 1 = bits / 8 := by omega
        calc 256 * 256 ^ (bits / 8 - 1) = 256 ^ (bits / 8 - 1) * 256 := by ring
          _ = 256 ^ (bits / 8 - 1 + 1) := (pow_succ 256 (bits / 8 - 1)).symm
          _ = 256 ^ (bits / 8) := by rw [hqq]
          _ = 2 ^ (8 * (bits / 8)) := by rw [pow_mul]; norm_num
          _ = 2 ^ bits := by congr 1; omega
      rw [← hpow]
      exact hmain
    · have hlb : (bits + 7) / 8 = bits / 8 + 1 := by omega
      have hmain := bytes_sum_lt (b := fun i => grsKeyByte bits rb i)
        (q := bits / 8) (m := 32) (c := 2 ^ (bits % 8)) (by omega)
        (fun i hi => grsKeyByte_lt_256 bits rb i)
        (by
          have htop := grsKeyByte_top bits rb hm
          have hq : (bits + 7) / 8 - 1 = bits / 8 := by omega
          rwa [hq] at htop)
        (fun i hi => grsKeyByte_zero_of_ge bits rb (by omega))
        (Nat.pos_pow_of_pos _ (by norm_num))
      have hpow : 2 ^ (bits % 8) * 256 ^ (bits / 8) = 2 ^ bits := by
        calc 2 ^ (bits % 8) * 256 ^ (bits / 8)
            = 2 ^ (bits % 8) * 2 ^ (8 * (bits / 8)) := by rw [pow_mul]; norm_num
          _ = 2 ^ (bits % 8 + 8 * (bits / 8)) := by rw [← pow_add]
          _ = 2 ^ bits := by congr 1; omega
      rw [← hpow]
      exact hmain

/-! ## Remaining support lemmas -/

theorem alInsert_mem {K V : Type*} [DecidableEq K]
    {l : List (K × V)} {k : K} {v : V} {e : K × V}
    (h : e ∈ alInsert l k v) : e = (k, v) ∨ e ∈ l := by
  induction l with
  | nil => simp [alInsert] at h; simp [h]
  | cons e' rest ih =>
      rw [alInsert_cons] at h
      by_cases he : e'.1 = k
      · rw [if_pos he] at h
        rcases List.mem_cons.mp h with h' | h'
        · left; exact h'
        · right; exact List.mem_cons_of_mem _ h'
      · rw [if_neg he] at h
        rcases List.mem_cons.mp h with h' | h'
        · right; rw [h']; exact List.mem_cons_self _ _
        · rcases ih h' with h'' | h''
          · left; exact h''
          · right; exact List.mem_cons_of_mem _ h''

theorem buildTable_mem {K : Type*} [DecidableEq K]
    {key : ℕ → K} {val : ℕ → ℕ} {n : ℕ} {e : K × ℕ}
    (h : e ∈ buildTable key val n) : ∃ j < n, e = (key j, val j) := by
  induction n with
  | zero => cases h
  | succ m ih =>
      unfold buildTable at h
      rw [List.range_succ, List.foldl_append] at h
      have h' : e ∈ alInsert (buildTable key val m) (key m) (val m) := h
      rcases alInsert_mem h' with h'' | h''
      · exact ⟨m, by omega, h''⟩
      · obtain ⟨j, hj, hje⟩ := ih h''
        exact ⟨j, by omega, hje⟩

theorem two_pow_le_msq (ℓ : ℕ) :
    2 ^ ℓ ≤ 2 ^ ((ℓ + 1) / 2) * 2 ^ ((ℓ + 1) / 2) := by
  rw [← pow_add]
  exact Nat.pow_le_pow_right (by norm_num) (by omega)

theorem m_le_pow {ℓ c : ℕ} (h : ℓ ≤ 2 * c) : 2 ^ ((ℓ + 1) / 2) ≤ 2 ^ c :=
  Nat.pow_le_pow_right (by norm_num) (by omega)

theorem one_le_m (ℓ : ℕ) : 1 ≤ 2 ^ ((ℓ + 1) / 2) := Nat.one_le_two_pow

theorem double_bits_half (ℓ : ℕ) : (ℓ * 2 + 1) / 2 = ℓ := by omega

theorem getD_map_range {α : Type*} (f : ℕ → α) (d : α) {n h : ℕ} (hh : h < n) :
    ((List.range n).map f).getD h d = f h := by
  rw [List.getD_eq_getElem _ _ (by simpa using hh), List.getElem_map, List.getElem_range]

theorem slog_size_le (pr : Parameters) : slog_size pr ≤ 62 := by
  unfold slog_size
  by_cases h : pr.secret_size < 8
  · rw [if_pos h]; omega
  · rw [if_neg h]
    set q := 2 ^ min pr.secret_size 62 / 4 / max pr.W 1 with hqdef
    by_cases hq0 : q > 0
    · rw [if_pos hq0]
      have h1 : q ≤ 2 ^ 60 := by
        have h2 : (2 : ℕ) ^ min pr.secret_size 62 ≤ 2 ^ 62 :=
          Nat.pow_le_pow_right (by norm_num) (by omega)
        have h3 : (2 : ℕ) ^ min pr.secret_size 62 / 4 ≤ 2 ^ 62 / 4 :=
          Nat.div_le_div_right h2
        have h4 : q ≤ 2 ^ min pr.secret_size 62 / 4 := by
          rw [hqdef]; exact Nat.div_le_self _ _
        have h5 : (2 : ℕ) ^ 62 / 4 = 2 ^ 60 := by norm_num
        omega
      have h6 : Nat.log2 q < 61 := (Nat.log2_lt (by omega)).mpr (by
        calc q ≤ 2 ^ 60 := h1
          _ < 2 ^ 61 := by norm_num)
      omega
    · rw [if_neg hq0]; omega

/-- Modelled from the spec's step-scalar paragraph (for comparison with the
code's `slog_size`): for ℓ < 8, `slog_size = max(1, ℓ)`; otherwise
`slog_size = max(1, ⌊log₂ r⌋)` for `r = ⌊(2^min(ℓ,62)/4) / W⌋` when
`r > 0`, else `1`. -/
def slogSizeSpec (pr : Parameters) : ℕ :=
  if pr.secret_size < 8 then max 1 pr.secret_size
  else if 2 ^ min pr.secret_size 62 / 4 / pr.W > 0 then
    max 1 (Nat.log 2 (2 ^ min pr.secret_size 62 / 4 / pr.W))
  else 1

theorem slog_size_eq_spec (pr : Parameters) (hW : 1 ≤ pr.W) :
    slog_size pr = slogSizeSpec pr := by
  unfold slog_size slogSizeSpec
  have hmax : max pr.W 1 = pr.W := by omega
  rw [hmax]
  by_cases h : pr.secret_size < 8
  · rw [if_pos h, if_pos h]
    omega
  · rw [if_neg h, if_neg h]
    by_cases hq : 2 ^ min pr.secret_size 62 / 4 / pr.W > 0
    · rw [if_pos hq, if_pos hq, Nat.log2_eq_log_two]
      omega
    · rw [if_neg hq, if_neg hq]

theorem s_values_init_eq (pr : Parameters) (rng : ℕ → ℕ) :
    Table.s_values_init pr rng = some (
      (List.range pr.R).map
        (fun h => ((rng h % 2 ^ slog_size pr : ℕ) : ZMod P) + 1),
      (List.range pr.R).map
        (fun h => mulG (((rng h % 2 ^ slog_size pr : ℕ) : ZMod P) + 1))) := by
  have hsz := slog_size_le pr
  unfold Table.s_values_init
  rw [if_neg (by omega)]

theorem slog_val_bounds (pr : Parameters) (r : ℕ) :
    1 ≤ (((r % 2 ^ slog_size pr : ℕ) : ZMod P) + 1).val ∧
    (((r % 2 ^ slog_size pr : ℕ) : ZMod P) + 1).val ≤ 2 ^ slog_size pr := by
  have hsz := slog_size_le pr
  have hr : r % 2 ^ slog_size pr < 2 ^ slog_size pr :=
    Nat.mod_lt _ (Nat.pos_pow_of_pos _ (by norm_num))
  have hcast : ((r % 2 ^ slog_size pr : ℕ) : ZMod P) + 1 =
      ((r % 2 ^ slog_size pr + 1 : ℕ) : ZMod P) := by
    push_cast
    ring
  have hlt : r % 2 ^ slog_size pr + 1 < P := by
    have h62 : (2 : ℕ) ^ slog_size pr ≤ 2 ^ 62 :=
      Nat.pow_le_pow_right (by norm_num) hsz
    have : (2 : ℕ) ^ 62 + 1 < P := by decide
    omega
  rw [hcast, ZMod.val_cast_of_lt hlt]
  omega

/-! # The claims -/

/-- C1 (Soundness): for every bit width ℓ accepted at table generation and
every `x ∈ [0, 2^ℓ)`, each deterministic solver — BSGS, BSGS-k (any batch
size `K ≥ 1`), TBSGS-k (any `K ≥ 1`, assuming table generation succeeded)
and NaiveLookup — built via `new_and_compute_table(ℓ)` returns `Ok(x)` from
`solve(x·g)`, for any injective compression and any truncation. -/
theorem C1_soundness {K : Type*} [DecidableEq K] {compress : Pt → K}
    (hinj : Function.Injective compress) (trunc : K → ℕ) {ℓ x Kb : ℕ}
    (hx : x < 2 ^ ℓ) (hKb : 1 ≤ Kb) :
    (∀ t, BabyStepGiantStepTable.generate compress ℓ = some t →
      BabyStepGiantStep.solve compress t ((x : ℕ) : Pt) = some x) ∧
    (∀ t, BabyStepGiantStepKTable.generate compress ℓ = some t →
      BabyStepGiantStepK.solve compress t Kb ((x : ℕ) : Pt) = some x) ∧
    (∀ t, TruncatedBabyStepGiantStepKTable.generate compress trunc ℓ = some t →
      TruncatedBabyStepGiantStepK.solve compress trunc t Kb ((x : ℕ) : Pt) = some x) ∧
    (∀ t, NaiveLookupTable.generate compress ℓ = some t →
      NaiveLookup.solve compress t ((x : ℕ) : Pt) = some x) := by
  refine ⟨?_, ?_, ?_, ?_⟩
  · intro t hgen
    obtain ⟨h1, h32, rfl⟩ := bsgs_generate_inv hgen
    exact bsgs_core_in hinj (m_le_pow (by omega)) (one_le_m ℓ)
      (lt_of_lt_of_le hx (two_pow_le_msq ℓ))
  · intro t hgen
    obtain ⟨h1, h64, rfl⟩ := bsgsK_generate_inv hgen
    exact bsgsk_core_in hinj (m_le_pow (by omega)) (one_le_m ℓ) hKb
      (lt_of_lt_of_le hx (two_pow_le_msq ℓ))
  · intro t hgen
    obtain ⟨tb, tm, tbs, tgs⟩ := t
    obtain ⟨h1, h32, hb, hm, hgs, hinjK, hlist, hchar⟩ :=
      tbsgs_generate_inv hgen
    have hm' : tm = 2 ^ ((ℓ + 1) / 2) := hm
    have hgs' : tgs = -((2 ^ ((ℓ + 1) / 2) : ℕ) : Pt) := hgs
    subst hm'
    subst hgs'
    exact tbsgs_core_in (m_le_pow (by omega)) (one_le_m ℓ) hKb
      (lt_of_lt_of_le hx (two_pow_le_msq ℓ)) hchar
  · intro t hgen
    obtain ⟨h1, h32, rfl⟩ := nl_generate_inv hgen
    exact nl_core_in hinj (Nat.pow_le_pow_right (by norm_num) h32) hx

/-- Witness for C1 at `ℓ = 2`, `x = 2`, `K = 1`, identity compression. -/
theorem C1_soundness_witness :
    Function.Injective (fun z : Pt => z) ∧ (2 : ℕ) < 2 ^ 2 ∧ (1 : ℕ) ≤ 1 ∧
    (∀ t, BabyStepGiantStepTable.generate (fun z : Pt => z) 2 = some t →
      BabyStepGiantStep.solve (fun z : Pt => z) t ((2 : ℕ) : Pt) = some 2) :=
  ⟨fun a b h => h, by decide, le_rfl,
    (C1_soundness (fun a b h => h) ZMod.val (by decide) le_rfl).1⟩

/-- Concrete BL12 parameter set used to refute the unrestricted "never
wrong" claim: `i = 8`, `W = 2`, `N = 1`, `R = 4`, `secret_size = 64`. -/
def cexPr : Parameters := ⟨8, 2, 1, 4, 64⟩

/-- A last-8-bytes view under which only the point `(2^64 - 1)·g` is
non-distinguished. -/
def cexLastU64 : Pt → ℕ := fun z => if z = ((2 ^ 64 - 1 : ℕ) : Pt) then 1 else 0

/-- Random stream for table generation: step-scalar draws (indices `< 4`)
are `0`; the first `wlog` draw is `2^64 - 1`. -/
def cexRngGen : ℕ → ℕ := fun idx => if idx < 4 then 0 else 2 ^ 64 - 1

/-- Random stream for solving: every draw is `0`. -/
def cexRngSolve : ℕ → ℕ := fun _ => 0

def cexSlog : List (ZMod P) := [1, 1, 1, 1]

def cexS : List Pt := [1, 1, 1, 1]

/-- The table `Table::generate` produces from `cexPr` / `cexRngGen`: one
distinguished point `(2^64)·g` whose recorded discrete log is the scalar
`2^64` (the generation walk started at `2^64 - 1` and took one step of
size `1`). -/
def cexTable : Bl12Table Pt :=
  ⟨cexS, cexSlog, [(((2 ^ 64 : ℕ) : Pt), ((2 ^ 64 : ℕ) : ZMod P))]⟩

theorem cexPr_slog_size : slog_size cexPr = 59 := by
  have hq : 2 ^ min cexPr.secret_size 62 / 4 / max cexPr.W 1 = 2 ^ 59 := by decide
  unfold slog_size
  rw [if_neg (by decide), hq, if_pos (by norm_num), Nat.log2_eq_log_two,
    Nat.log_pow (by norm_num)]
  omega

theorem cex_s_values : Table.s_values_init cexPr cexRngGen = some (cexSlog, cexS) := by
  rw [s_values_init_eq, cexPr_slog_size]
  decide

theorem cex_generate :
    Table.generate (fun z : Pt => z) cexLastU64 cexPr cexRngGen = some cexTable := by
  unfold Table.generate
  rw [cex_s_values]
  decide

/-- C2 counterexample: the claim "for every input point Y and every solver,
if solve(Y) returns Ok(x) then x·g = Y" fails for BL12.  With the parameter
set `cexPr`, BL12's table generation (run with the random stream
`cexRngGen`) produces `cexTable`, whose sole distinguished point is
`(2^64)·g` with recorded log `2^64`; solving `Y = (2^64)·g` (random stream
`cexRngSolve`) then returns `Ok(0)` — `scalar_to_u64` truncates the matched
scalar `2^64` to its low 64 bits — yet `0·g ≠ Y`. -/
theorem C2_counterexample :
    Table.generate (fun z : Pt => z) cexLastU64 cexPr cexRngGen = some cexTable ∧
    Bl12.solve_dlp (fun z : Pt => z) cexLastU64 cexPr cexTable cexRngSolve
      ((2 ^ 64 : ℕ) : Pt) 1 = some 0 ∧
    ¬ (((0 : ℕ) : Pt) = ((2 ^ 64 : ℕ) : Pt)) :=
  ⟨cex_generate, by decide, by decide⟩

/-- C2 amended (never wrong): for every input point `Y`, each of the six
deterministic solvers (BSGS, BSGS-k, TBSGS-k, NaiveLookup,
NaiveDoubledLookup over a generated BSGS-k table, NaiveTruncatedDoubledLookup
over any truncated table) returns `Ok(x)` only when `x·g = Y`; a TBSGS-k or
NTDL truncated-key false positive is never returned, and an NDL lookup can
only hit when `Y` itself is `j·g`.  BL12 returns `Ok(x)` only when `x` is
the canonical discrete log of `Y` reduced mod `2^64`; hence `x·g = Y` holds
whenever that log is below `2^64` (in particular whenever `Y` lies in the
solver's asserted range), but not for arbitrary `Y`. -/
theorem C2_never_wrong {K : Type*} [DecidableEq K] {compress : Pt → K}
    (hinj : Function.Injective compress) (trunc lastU64 : K → ℕ) (ℓ Kb : ℕ) :
    (∀ t Y r, BabyStepGiantStepTable.generate compress ℓ = some t →
      BabyStepGiantStep.solve compress t Y = some r → ((r : ℕ) : Pt) = Y) ∧
    (∀ t Y r, BabyStepGiantStepKTable.generate compress ℓ = some t →
      BabyStepGiantStepK.solve compress t Kb Y = some r → ((r : ℕ) : Pt) = Y) ∧
    (∀ t Y r, TruncatedBabyStepGiantStepKTable.generate compress trunc ℓ = some t →
      TruncatedBabyStepGiantStepK.solve compress trunc t Kb Y = some r →
      ((r : ℕ) : Pt) = Y) ∧
    (∀ t Y r, NaiveLookupTable.generate compress ℓ = some t →
      NaiveLookup.solve compress t Y = some r → ((r : ℕ) : Pt) = Y) ∧
    (∀ t Y r, BabyStepGiantStepKTable.generate compress ℓ = some t →
      NaiveDoubledLookup.solve compress t Y = some r → ((r : ℕ) : Pt) = Y) ∧
    (∀ t Y r, NaiveTruncatedDoubledLookup.solve compress trunc t Y = some r →
      ((r : ℕ) : Pt) = Y) ∧
    (∀ pr tbl rng fuel (Y : Pt) r,
      Bl12.solve_dlp compress lastU64 pr tbl rng Y fuel = some r →
      r = Y.val % 2 ^ 64 ∧ (Y.val < 2 ^ 64 → ((r : ℕ) : Pt) = Y)) := by
  refine ⟨?_, ?_, ?_, ?_, ?_, ?_, ?_⟩
  · intro t Y r hgen h
    obtain ⟨h1, h32, rfl⟩ := bsgs_generate_inv hgen
    exact bsgs_core_sound hinj (m_le_pow (by omega)) h
  · intro t Y r hgen h
    obtain ⟨h1, h64, rfl⟩ := bsgsK_generate_inv hgen
    exact bsgsk_core_sound hinj (m_le_pow (by omega)) h
  · intro t Y r hgen h
    obtain ⟨tb, tm, tbs, tgs⟩ := t
    obtain ⟨h1, h32, hb, hm, hgs, hinjK, hlist, hchar⟩ :=
      tbsgs_generate_inv hgen
    have hm' : tm = 2 ^ ((ℓ + 1) / 2) := hm
    have hgs' : tgs = -((2 ^ ((ℓ + 1) / 2) : ℕ) : Pt) := hgs
    subst hm'
    subst hgs'
    exact tbsgs_core_sound h
  · intro t Y r hgen h
    obtain ⟨h1, h32, rfl⟩ := nl_generate_inv hgen
    exact nl_core_sound hinj (Nat.pow_le_pow_right (by norm_num) h32) h
  · intro t Y r hgen h
    obtain ⟨h1, h64, rfl⟩ := bsgsK_generate_inv hgen
    exact ndl_core_sound hinj (m_le_pow (by omega)) h
  · intro t Y r h
    exact ntdl_core_sound h
  · intro pr tbl rng fuel Y r h
    have hval := Bl12.solve_dlp_val h
    refine ⟨hval, ?_⟩
    intro hY64
    rw [hval, Nat.mod_eq_of_lt hY64]
    apply ZMod.val_injective
    rw [ZMod.val_cast_of_lt (ZMod.val_lt Y)]

/-- Witness for the amended C2 at `ℓ = 1`, `K = 1`, identity compression. -/
theorem C2_never_wrong_witness :
    Function.Injective (fun z : Pt => z) ∧
    (∀ t Y r, BabyStepGiantStepTable.generate (fun z : Pt => z) 1 = some t →
      BabyStepGiantStep.solve (fun z : Pt => z) t Y = some r → ((r : ℕ) : Pt) = Y) :=
  ⟨fun a b h => h,
    (C2_never_wrong (fun a b h => h) ZMod.val ZMod.val 1 1).1⟩

/-- C3 counterexample: the claim "solve(x·g) errors iff x ∉ [0, 2^ℓ)" fails
for odd ℓ, because the solve loops scan `[0, m²)` with `m = 2^⌈ℓ/2⌉` and
`m² = 2^(ℓ+1) > 2^ℓ`.  Concretely, BSGS built for ℓ = 1 answers
`solve(2·g) = Ok(2)` although `2 ∉ [0, 2^1)`, instead of returning the
"out of range" error the claim requires. -/
theorem C3_counterexample :
    (BabyStepGiantStepTable.generate (fun z : Pt => z) 1).map
      (fun t => BabyStepGiantStep.solve (fun z : Pt => z) t ((2 : ℕ) : Pt)) =
      some (some 2) ∧ ¬ ((2 : ℕ) < 2 ^ 1) :=
  ⟨by decide, by decide⟩

/-- C3 amended (out-of-range is exact, with the scanned range): for every
`u64` input `x` and every injective compression, each deterministic solver
with bit width ℓ returns the "out of range" error from `solve(x·g)` exactly
when `x` lies outside its scanned range — `[0, m²)` with `m = 2^⌈ℓ/2⌉` for
BSGS, BSGS-k and TBSGS-k (this equals `[0, 2^ℓ)` exactly when `ℓ` is even),
and `[0, 2^ℓ)` for NaiveLookup and for NaiveDoubledLookup /
NaiveTruncatedDoubledLookup as built by `new_and_compute_table(ℓ)`. -/
theorem C3_out_of_range {K : Type*} [DecidableEq K] {compress : Pt → K}
    (hinj : Function.Injective compress) (trunc : K → ℕ) {ℓ x Kb : ℕ}
    (hx64 : x < 2 ^ 64) (hKb : 1 ≤ Kb) :
    (∀ t, BabyStepGiantStepTable.generate compress ℓ = some t →
      (BabyStepGiantStep.solve compress t ((x : ℕ) : Pt) = none ↔
        ¬ x < t.m * t.m)) ∧
    (∀ t, BabyStepGiantStepKTable.generate compress ℓ = some t →
      (BabyStepGiantStepK.solve compress t Kb ((x : ℕ) : Pt) = none ↔
        ¬ x < t.m * t.m)) ∧
    (∀ t, TruncatedBabyStepGiantStepKTable.generate compress trunc ℓ = some t →
      (TruncatedBabyStepGiantStepK.solve compress trunc t Kb ((x : ℕ) : Pt) = none ↔
        ¬ x < t.m * t.m)) ∧
    (∀ t, NaiveLookupTable.generate compress ℓ = some t →
      (NaiveLookup.solve compress t ((x : ℕ) : Pt) = none ↔ ¬ x < 2 ^ ℓ)) ∧
    (∀ t, NaiveDoubledLookup.new_and_compute_table compress ℓ = some t →
      (NaiveDoubledLookup.solve compress t ((x : ℕ) : Pt) = none ↔ ¬ x < 2 ^ ℓ)) ∧
    (∀ t, NaiveTruncatedDoubledLookup.new_and_compute_table compress trunc ℓ = some t →
      (NaiveTruncatedDoubledLookup.solve compress trunc t ((x : ℕ) : Pt) = none ↔
        ¬ x < 2 ^ ℓ)) := by
  have hxP : x < P := lt_trans hx64 two_pow_64_lt_P
  refine ⟨?_, ?_, ?_, ?_, ?_, ?_⟩
  · intro t hgen
    obtain ⟨h1, h32, rfl⟩ := bsgs_generate_inv hgen
    constructor
    · intro hnone hlt
      have hs : BabyStepGiantStep.solve compress
          ⟨ℓ, 2 ^ ((ℓ + 1) / 2),
            buildTable (fun j => compress ((j : ℕ) : Pt)) (fun j => j % 2 ^ 16)
              (2 ^ ((ℓ + 1) / 2)),
            -((2 ^ ((ℓ + 1) / 2) : ℕ) : Pt)⟩ ((x : ℕ) : Pt) = some x :=
        bsgs_core_in hinj (m_le_pow (by omega)) (one_le_m ℓ) hlt
      exact Option.noConfusion (hs.symm.trans hnone)
    · intro hge
      exact bsgs_core_none hinj (m_le_pow (by omega)) (one_le_m ℓ)
        (Nat.le_of_not_lt hge) hxP
  · intro t hgen
    obtain ⟨h1, h64, rfl⟩ := bsgsK_generate_inv hgen
    constructor
    · intro hnone hlt
      have hs : BabyStepGiantStepK.solve compress
          ⟨ℓ, 2 ^ ((ℓ + 1) / 2),
            buildTable (fun j => compress (2 * ((j : ℕ) : Pt))) (fun j => j)
              (2 ^ ((ℓ + 1) / 2)),
            -((2 ^ ((ℓ + 1) / 2) : ℕ) : Pt)⟩ Kb ((x : ℕ) : Pt) = some x :=
        bsgsk_core_in hinj (m_le_pow (by omega)) (one_le_m ℓ) hKb hlt
      exact Option.noConfusion (hs.symm.trans hnone)
    · intro hge
      exact bsgsk_core_none hinj (m_le_pow (by omega)) (one_le_m ℓ)
        (Nat.le_of_not_lt hge) hxP
  · intro t hgen
    obtain ⟨tb, tm, tbs, tgs⟩ := t
    obtain ⟨h1, h32, hb, hm, hgs, hinjK, hlist, hchar⟩ :=
      tbsgs_generate_inv hgen
    have hm' : tm = 2 ^ ((ℓ + 1) / 2) := hm
    have hgs' : tgs = -((2 ^ ((ℓ + 1) / 2) : ℕ) : Pt) := hgs
    subst hm'
    subst hgs'
    constructor
    · intro hnone hlt
      have hs : TruncatedBabyStepGiantStepK.solve compress trunc
          ⟨tb, 2 ^ ((ℓ + 1) / 2), tbs, -((2 ^ ((ℓ + 1) / 2) : ℕ) : Pt)⟩ Kb
          ((x : ℕ) : Pt) = some x :=
        tbsgs_core_in (m_le_pow (by omega)) (one_le_m ℓ) hKb hlt hchar
      exact Option.noConfusion (hs.symm.trans hnone)
    · intro hge
      exact tbsgs_core_none (m_le_pow (by omega)) (one_le_m ℓ)
        (Nat.le_of_not_lt hge) hxP hchar
  · intro t hgen
    obtain ⟨h1, h32, rfl⟩ := nl_generate_inv hgen
    constructor
    · intro hnone hlt
      have hs : NaiveLookup.solve compress
          ⟨ℓ, buildTable (fun i => compress ((i : ℕ) : Pt)) (fun i => i) (2 ^ ℓ)⟩
          ((x : ℕ) : Pt) = some x :=
        nl_core_in hinj (Nat.pow_le_pow_right (by norm_num) h32) hlt
      exact Option.noConfusion (hs.symm.trans hnone)
    · intro hge
      exact nl_core_none hinj (Nat.pow_le_pow_right (by norm_num) h32)
        (Nat.le_of_not_lt hge) hxP
  · intro t hgen
    obtain ⟨h1, h64, rfl⟩ := bsgsK_generate_inv hgen
    constructor
    · intro hnone hlt
      have hs : NaiveDoubledLookup.solve compress
          ⟨ℓ * 2, 2 ^ ((ℓ * 2 + 1) / 2),
            buildTable (fun j => compress (2 * ((j : ℕ) : Pt))) (fun j => j)
              (2 ^ ((ℓ * 2 + 1) / 2)),
            -((2 ^ ((ℓ * 2 + 1) / 2) : ℕ) : Pt)⟩ ((x : ℕ) : Pt) = some x :=
        ndl_core_in hinj (m_le_pow (by omega))
          (by rw [double_bits_half]; exact hlt)
      exact Option.noConfusion (hs.symm.trans hnone)
    · intro hge
      exact ndl_core_none hinj (m_le_pow (by omega))
        (by rw [double_bits_half]; exact Nat.le_of_not_lt hge) hxP
  · intro t hgen
    obtain ⟨tb, tm, tbs, tgs⟩ := t
    obtain ⟨h1, h32, hb, hm, hgs, hinjK, hlist, hchar⟩ :=
      tbsgs_generate_inv hgen
    have hm' : tm = 2 ^ ((ℓ * 2 + 1) / 2) := hm
    have hgs' : tgs = -((2 ^ ((ℓ * 2 + 1) / 2) : ℕ) : Pt) := hgs
    subst hm'
    subst hgs'
    constructor
    · intro hnone hlt
      have hs : NaiveTruncatedDoubledLookup.solve compress trunc
          ⟨tb, 2 ^ ((ℓ * 2 + 1) / 2), tbs, -((2 ^ ((ℓ * 2 + 1) / 2) : ℕ) : Pt)⟩
          ((x : ℕ) : Pt) = some x :=
        ntdl_core_in (m_le_pow (by omega))
          (by rw [double_bits_half]; exact hlt) hchar
      exact Option.noConfusion (hs.symm.trans hnone)
    · intro hge
      exact ntdl_core_none (m_le_pow (by omega))
        (by rw [double_bits_half]; exact Nat.le_of_not_lt hge) hxP hchar

/-- Witness for the amended C3 at `ℓ = 1`, `x = 2`, `K = 1`. -/
theorem C3_out_of_range_witness :
    Function.Injective (fun z : Pt => z) ∧ (2 : ℕ) < 2 ^ 64 ∧ (1 : ℕ) ≤ 1 ∧
    (∀ t, BabyStepGiantStepTable.generate (fun z : Pt => z) 1 = some t →
      (BabyStepGiantStep.solve (fun z : Pt => z) t ((2 : ℕ) : Pt) = none ↔
        ¬ 2 < t.m * t.m)) :=
  ⟨fun a b h => h, by decide, le_rfl,
    (C3_out_of_range (fun a b h => h) ZMod.val (by decide) le_rfl).1⟩

/-- C4 counterexample: BSGS-k table generation does NOT accept exactly
`ℓ ∈ [1, 32]` — it accepts the whole range `ℓ ∈ [1, 64]`.  Concretely,
`BabyStepGiantStepKTable::generate(33)` succeeds although `33 ∉ [1, 32]`
(and for such ℓ the table values exceed 16 bits: BSGS-k stores the full
`u64` index `j`, not `j mod 2^16`). -/
theorem C4_counterexample :
    (BabyStepGiantStepKTable.generate (fun z : Pt => z) 33).isSome = true ∧
    ¬ ((33 : ℕ) ≤ 32) :=
  ⟨rfl, by decide⟩

/-- C4 amended (table width and bit-range invariants as implemented): BSGS-k
generation accepts exactly `ℓ ∈ [1, 64]` while plain BSGS accepts exactly
`ℓ ∈ [1, 32]`; a generated BSGS-k table has `m ≤ 2^32` and stores each
baby-step value as the full index `j < m` (a `u64`, not a `u16`), whereas a
generated BSGS table has `m ≤ 2^16` and every stored value is reduced
`mod 2^16`, hence `< 2^16`. -/
theorem C4_table_invariants {K : Type*} [DecidableEq K] (compress : Pt → K)
    (ℓ : ℕ) :
    ((BabyStepGiantStepKTable.generate compress ℓ).isSome ↔ 1 ≤ ℓ ∧ ℓ ≤ 64) ∧
    ((BabyStepGiantStepTable.generate compress ℓ).isSome ↔ 1 ≤ ℓ ∧ ℓ ≤ 32) ∧
    (∀ t, BabyStepGiantStepKTable.generate compress ℓ = some t →
      t.m ≤ 2 ^ 32 ∧ ∀ e ∈ t.baby_steps, e.2 < t.m) ∧
    (∀ t, BabyStepGiantStepTable.generate compress ℓ = some t →
      t.m ≤ 2 ^ 16 ∧ ∀ e ∈ t.baby_steps, e.2 < 2 ^ 16) := by
  refine ⟨?_, ?_, ?_, ?_⟩
  · unfold BabyStepGiantStepKTable.generate
    by_cases hc : 1 ≤ ℓ ∧ ℓ ≤ 64
    · rw [if_pos hc]; simpa using hc
    · rw [if_neg hc]; simpa using hc
  · unfold BabyStepGiantStepTable.generate
    by_cases hc : 1 ≤ ℓ ∧ ℓ ≤ 32
    · rw [if_pos hc]; simpa using hc
    · rw [if_neg hc]; simpa using hc
  · intro t hgen
    obtain ⟨h1, h64, rfl⟩ := bsgsK_generate_inv hgen
    refine ⟨m_le_pow (by omega), ?_⟩
    intro e he
    obtain ⟨j, hj, rfl⟩ := buildTable_mem he
    exact hj
  · intro t hgen
    obtain ⟨h1, h32, rfl⟩ := bsgs_generate_inv hgen
    refine ⟨m_le_pow (by omega), ?_⟩
    intro e he
    obtain ⟨j, hj, rfl⟩ := buildTable_mem he
    exact Nat.mod_lt _ (by norm_num)

/-- C5 (identity maps to zero): BSGS, BSGS-k, TBSGS-k and BL12 return `0` on
the identity input for every table (their `solve` special-cases the identity
before touching the table), and NaiveLookup, NaiveDoubledLookup and
NaiveTruncatedDoubledLookup — whose `solve` has no identity special case —
return `0` on the identity for every successfully generated table, because
generation maps the (doubled) compression of `0·g` to `0`. -/
theorem C5_identity {K : Type*} [DecidableEq K] {compress : Pt → K}
    (hinj : Function.Injective compress) (trunc : K → ℕ) (ℓ Kb : ℕ) :
    (∀ t : BabyStepGiantStepTable K,
      BabyStepGiantStep.solve compress t (0 : Pt) = some 0) ∧
    (∀ t : BabyStepGiantStepKTable K,
      BabyStepGiantStepK.solve compress t Kb (0 : Pt) = some 0) ∧
    (∀ t : TruncatedBabyStepGiantStepKTable,
      TruncatedBabyStepGiantStepK.solve compress trunc t Kb (0 : Pt) = some 0) ∧
    (∀ (lastU64 : K → ℕ) (pr : Parameters) (tbl : Bl12Table K) (rng : ℕ → ℕ)
      (fuel : ℕ),
      Bl12.solve_dlp compress lastU64 pr tbl rng (0 : Pt) fuel = some 0) ∧
    (∀ t, NaiveLookupTable.generate compress ℓ = some t →
      NaiveLookup.solve compress t (0 : Pt) = some 0) ∧
    (∀ t, NaiveDoubledLookup.new_and_compute_table compress ℓ = some t →
      NaiveDoubledLookup.solve compress t (0 : Pt) = some 0) ∧
    (∀ t, NaiveTruncatedDoubledLookup.new_and_compute_table compress trunc ℓ = some t →
      NaiveTruncatedDoubledLookup.solve compress trunc t (0 : Pt) = some 0) := by
  have h0 : (0 : Pt) = ((0 : ℕ) : Pt) := by norm_num
  refine ⟨?_, ?_, ?_, ?_, ?_, ?_, ?_⟩
  · intro t
    unfold BabyStepGiantStep.solve
    rw [if_pos rfl]
  · intro t
    unfold BabyStepGiantStepK.solve
    rw [if_pos rfl]
  · intro t
    unfold TruncatedBabyStepGiantStepK.solve
    rw [if_pos rfl]
  · intro lastU64 pr tbl rng fuel
    unfold Bl12.solve_dlp
    rw [if_pos rfl]
  · intro t hgen
    obtain ⟨h1, h32, rfl⟩ := nl_generate_inv hgen
    rw [h0]
    exact nl_core_in hinj (Nat.pow_le_pow_right (by norm_num) h32)
      Nat.one_le_two_pow
  · intro t hgen
    obtain ⟨h1, h64, rfl⟩ := bsgsK_generate_inv hgen
    rw [h0]
    exact ndl_core_in hinj (m_le_pow (by omega)) (one_le_m (ℓ * 2))
  · intro t hgen
    obtain ⟨tb, tm, tbs, tgs⟩ := t
    obtain ⟨h1, h32, hb, hm, hgs, hinjK, hlist, hchar⟩ :=
      tbsgs_generate_inv hgen
    have hm' : tm = 2 ^ ((ℓ * 2 + 1) / 2) := hm
    have hgs' : tgs = -((2 ^ ((ℓ * 2 + 1) / 2) : ℕ) : Pt) := hgs
    subst hm'
    subst hgs'
    rw [h0]
    exact ntdl_core_in (m_le_pow (by omega)) (one_le_m (ℓ * 2)) hchar

/-- Witness for C5 at `ℓ = 1`, `K = 1`, identity compression, on a concrete
(arbitrary) BSGS table. -/
theorem C5_identity_witness :
    Function.Injective (fun z : Pt => z) ∧
    BabyStepGiantStep.solve (fun z : Pt => z)
      ⟨1, 2, [], -((2 : ℕ) : Pt)⟩ (0 : Pt) = some 0 :=
  ⟨fun a b h => h,
    (C5_identity (fun a b h => h) ZMod.val 1 1).1 ⟨1, 2, [], -((2 : ℕ) : Pt)⟩⟩

theorem bsgs_from_to_bytes {K : Type*} [DecidableEq K] (key : ℕ → K)
    (b m : ℕ) (gs : Pt) (hm : m ≤ 2 ^ 16)
    (hinj : ∀ i j, i < m → j < m → key i = key j → i = j) :
    BabyStepGiantStepTable.from_bytes (BabyStepGiantStepTable.to_bytes
      (⟨b, m, buildTable key (fun j => j % 2 ^ 16) m, gs⟩ :
        BabyStepGiantStepTable K)) =
    ⟨b, m, buildTable key (fun j => j % 2 ^ 16) m, gs⟩ := by
  unfold BabyStepGiantStepTable.to_bytes BabyStepGiantStepTable.from_bytes
  dsimp only
  rw [serialized_list_roundtrip key m hm hinj]

theorem tbsgs_from_to_bytes (key : ℕ → ℕ) (b m : ℕ) (gs : Pt) (hm : m ≤ 2 ^ 16)
    (hinj : ∀ i j, i < m → j < m → key i = key j → i = j) :
    TruncatedBabyStepGiantStepKTable.from_bytes
      (TruncatedBabyStepGiantStepKTable.to_bytes
        ⟨b, m, buildTable key (fun j => j % 2 ^ 16) m, gs⟩) =
    ⟨b, m, buildTable key (fun j => j % 2 ^ 16) m, gs⟩ := by
  unfold TruncatedBabyStepGiantStepKTable.to_bytes
    TruncatedBabyStepGiantStepKTable.from_bytes
  dsimp only
  rw [serialized_list_roundtrip key m hm hinj]

/-- C6 (serialization round-trip): for every BSGS table and every TBSGS-k
table produced by `generate` (with an injective compression), decoding the
encoding gives back a table with the same `max_num_bits`, `m`, `giant_step`
and baby-step map — in fact the identical table — and hence every `solve`
call answers identically on it. -/
theorem C6_roundtrip {K : Type*} [DecidableEq K] {compress : Pt → K}
    (hinj : Function.Injective compress) (trunc : K → ℕ) {ℓ : ℕ} :
    (∀ t, BabyStepGiantStepTable.generate compress ℓ = some t →
      BabyStepGiantStepTable.from_bytes (BabyStepGiantStepTable.to_bytes t) = t ∧
      ∀ Y, BabyStepGiantStep.solve compress
          (BabyStepGiantStepTable.from_bytes (BabyStepGiantStepTable.to_bytes t)) Y =
        BabyStepGiantStep.solve compress t Y) ∧
    (∀ t, TruncatedBabyStepGiantStepKTable.generate compress trunc ℓ = some t →
      TruncatedBabyStepGiantStepKTable.from_bytes
          (TruncatedBabyStepGiantStepKTable.to_bytes t) = t ∧
      ∀ Kb Y, TruncatedBabyStepGiantStepK.solve compress trunc
          (TruncatedBabyStepGiantStepKTable.from_bytes
            (TruncatedBabyStepGiantStepKTable.to_bytes t)) Kb Y =
        TruncatedBabyStepGiantStepK.solve compress trunc t Kb Y) := by
  constructor
  · intro t hgen
    obtain ⟨h1, h32, rfl⟩ := bsgs_generate_inv hgen
    have hr := bsgs_from_to_bytes (fun j => compress ((j : ℕ) : Pt)) ℓ
      (2 ^ ((ℓ + 1) / 2)) (-((2 ^ ((ℓ + 1) / 2) : ℕ) : Pt)) (m_le_pow (by omega))
      (nl_keyInj hinj (m_le_pow (by omega)))
    exact ⟨hr, fun Y => by rw [hr]⟩
  · intro t hgen
    obtain ⟨tb, tm, tbs, tgs⟩ := t
    obtain ⟨h1, h32, hb, hm, hgs, hinjK, hlist, hchar⟩ :=
      tbsgs_generate_inv hgen
    have hm' : tm = 2 ^ ((ℓ + 1) / 2) := hm
    have hgs' : tgs = -((2 ^ ((ℓ + 1) / 2) : ℕ) : Pt) := hgs
    subst hm'
    subst hgs'
    have hlist0 : tbs = (List.range (2 ^ ((ℓ + 1) / 2))).map
        (fun j => (trunc (compress (2 * ((j : ℕ) : Pt))), j % 2 ^ 16)) := hlist
    have hinjK0 : ∀ i j, i < 2 ^ ((ℓ + 1) / 2) → j < 2 ^ ((ℓ + 1) / 2) →
        trunc (compress (2 * ((i : ℕ) : Pt))) =
          trunc (compress (2 * ((j : ℕ) : Pt))) → i = j := hinjK
    have hlist' : tbs = buildTable
        (fun j => trunc (compress (2 * ((j : ℕ) : Pt))))
        (fun j => j % 2 ^ 16) (2 ^ ((ℓ + 1) / 2)) := by
      rw [hlist0, buildTable_eq_map hinjK0]
    subst hlist'
    have hr := tbsgs_from_to_bytes
      (fun j => trunc (compress (2 * ((j : ℕ) : Pt)))) tb
      (2 ^ ((ℓ + 1) / 2)) (-((2 ^ ((ℓ + 1) / 2) : ℕ) : Pt)) (m_le_pow (by omega))
      hinjK0
    exact ⟨hr, fun Kb Y => by rw [hr]⟩

/-- Witness for C6 at `ℓ = 1` with the identity compression. -/
theorem C6_roundtrip_witness :
    Function.Injective (fun z : Pt => z) ∧
    (∀ t, BabyStepGiantStepTable.generate (fun z : Pt => z) 1 = some t →
      BabyStepGiantStepTable.from_bytes (BabyStepGiantStepTable.to_bytes t) = t ∧
      ∀ Y, BabyStepGiantStep.solve (fun z : Pt => z)
          (BabyStepGiantStepTable.from_bytes (BabyStepGiantStepTable.to_bytes t)) Y =
        BabyStepGiantStep.solve (fun z : Pt => z) t Y) :=
  ⟨fun a b h => h, (C6_roundtrip (fun a b h => h) ZMod.val).1⟩

/-- C7 (TBSGS-k collision rejection): for `ℓ ∈ [1, 32]`, table generation
either fails (returns the fatal collision error) and two distinct indices
`i ≠ j` in `[0, m)` share the 8-byte truncation of `compress(2·j·g)`, or it
succeeds with a baby-step map of exactly `m` entries in which each truncated
key `truncate(compress(2·j·g))` maps to its own `j`, and no two distinct
indices share a truncated key. -/
theorem C7_collision_rejection {K : Type*} [DecidableEq K] (compress : Pt → K)
    (trunc : K → ℕ) {ℓ : ℕ} (h1 : 1 ≤ ℓ) (h32 : ℓ ≤ 32) :
    (TruncatedBabyStepGiantStepKTable.generate compress trunc ℓ = none ∧
      ∃ i j, i < 2 ^ ((ℓ + 1) / 2) ∧ j < 2 ^ ((ℓ + 1) / 2) ∧ i ≠ j ∧
        trunc (compress (2 * ((i : ℕ) : Pt))) =
          trunc (compress (2 * ((j : ℕ) : Pt)))) ∨
    (∃ t, TruncatedBabyStepGiantStepKTable.generate compress trunc ℓ = some t ∧
      t.m = 2 ^ ((ℓ + 1) / 2) ∧ t.baby_steps.length = t.m ∧
      (∀ j < t.m, alLookup t.baby_steps
        (trunc (compress (2 * ((j : ℕ) : Pt)))) = some j) ∧
      (∀ i j, i < t.m → j < t.m →
        trunc (compress (2 * ((i : ℕ) : Pt))) =
          trunc (compress (2 * ((j : ℕ) : Pt))) → i = j)) := by
  by_cases hinjKey : ∀ i j, i < 2 ^ ((ℓ + 1) / 2) → j < 2 ^ ((ℓ + 1) / 2) →
      trunc (compress (2 * ((i : ℕ) : Pt))) =
        trunc (compress (2 * ((j : ℕ) : Pt))) → i = j
  · right
    have hlist := tbsgsInsertAll_range_list hinjKey
    obtain ⟨res, hres, hchar⟩ := tbsgsInsertAll_range_some hinjKey
    have hre : res = (List.range (2 ^ ((ℓ + 1) / 2))).map
        (fun j => (trunc (compress (2 * ((j : ℕ) : Pt))), j % 2 ^ 16)) :=
      Option.some.inj (hres.symm.trans hlist)
    subst hre
    refine ⟨⟨ℓ, 2 ^ ((ℓ + 1) / 2),
      (List.range (2 ^ ((ℓ + 1) / 2))).map
        (fun j => (trunc (compress (2 * ((j : ℕ) : Pt))), j % 2 ^ 16)),
      -((2 ^ ((ℓ + 1) / 2) : ℕ) : Pt)⟩, ?_, rfl, ?_, ?_, hinjKey⟩
    · unfold TruncatedBabyStepGiantStepKTable.generate
      rw [if_pos ⟨h1, h32⟩, hlist]
    · show ((List.range (2 ^ ((ℓ + 1) / 2))).map
        (fun j => (trunc (compress (2 * ((j : ℕ) : Pt))), j % 2 ^ 16))).length =
        2 ^ ((ℓ + 1) / 2)
      rw [List.length_map, List.length_range]
    · intro j hj
      have hj' : j < 2 ^ ((ℓ + 1) / 2) := hj
      have h := (hchar (trunc (compress (2 * ((j : ℕ) : Pt)))) (j % 2 ^ 16)).mpr
        ⟨j, hj', rfl, rfl⟩
      rw [Nat.mod_eq_of_lt (lt_of_lt_of_le hj' (m_le_pow (by omega)))] at h
      exact h
  · left
    push_neg at hinjKey
    obtain ⟨i, j, hi, hj, hk, hne⟩ := hinjKey
    refine ⟨?_, i, j, hi, hj, hne, hk⟩
    rcases hg : TruncatedBabyStepGiantStepKTable.generate compress trunc ℓ with _ | t
    · rfl
    · exfalso
      obtain ⟨-, -, -, hm, -, hinjK, -, -⟩ :=
        tbsgs_generate_inv hg
      exact hne (hinjK i j (by rw [hm]; exact hi) (by rw [hm]; exact hj) hk)

/-- Witness for C7 at `ℓ = 1`, identity compression, `trunc = ZMod.val`. -/
theorem C7_collision_rejection_witness :
    (1 : ℕ) ≤ 1 ∧ (1 : ℕ) ≤ 32 ∧
    ((TruncatedBabyStepGiantStepKTable.generate (fun z : Pt => z) ZMod.val 1 = none ∧
      ∃ i j, i < 2 ^ ((1 + 1) / 2) ∧ j < 2 ^ ((1 + 1) / 2) ∧ i ≠ j ∧
        ZMod.val ((fun z : Pt => z) (2 * ((i : ℕ) : Pt))) =
          ZMod.val ((fun z : Pt => z) (2 * ((j : ℕ) : Pt)))) ∨
    (∃ t, TruncatedBabyStepGiantStepKTable.generate (fun z : Pt => z) ZMod.val 1 =
        some t ∧
      t.m = 2 ^ ((1 + 1) / 2) ∧ t.baby_steps.length = t.m ∧
      (∀ j < t.m, alLookup t.baby_steps
        (ZMod.val ((fun z : Pt => z) (2 * ((j : ℕ) : Pt))))= some j) ∧
      (∀ i j, i < t.m → j < t.m →
        ZMod.val ((fun z : Pt => z) (2 * ((i : ℕ) : Pt))) =
          ZMod.val ((fun z : Pt => z) (2 * ((j : ℕ) : Pt))) → i = j))) :=
  ⟨le_rfl, by norm_num,
    C7_collision_rejection (fun z : Pt => z) ZMod.val le_rfl (by norm_num)⟩

/-- C8 (BL12 distinguished-key invariant): for every parameter set whose `W`
is a power of two and every RNG, each key `C` of the distinguished-point map
of a table produced by `Table::generate` satisfies the distinguishing
predicate `lastU64(C) AND (W - 1) = 0`. -/
theorem C8_distinguished_keys {K : Type*} [DecidableEq K] {compress : Pt → K}
    {lastU64 : K → ℕ} {pr : Parameters} {rng : ℕ → ℕ} {tbl : Bl12Table K} {w : ℕ}
    (hW : pr.W = 2 ^ w)
    (h : Table.generate compress lastU64 pr rng = some tbl) :
    ∀ e ∈ tbl.table, Nat.land (lastU64 e.1) (pr.W - 1) = 0 :=
  Table.generate_keys h

/-- Witness for C8 on a concrete one-entry table (`W = 1 = 2^0`,
`secret_size = 1`, all-zero RNG, constant-zero `lastU64`). -/
theorem C8_distinguished_keys_witness :
    (⟨1, 1, 1, 1, 1⟩ : Parameters).W = 2 ^ 0 ∧
    Table.generate (fun z : Pt => z) (fun _ : Pt => 0)
      (⟨1, 1, 1, 1, 1⟩ : Parameters) (fun _ => 0) =
      some ⟨[(1 : Pt)], [(1 : ZMod P)], [((0 : Pt), (0 : ZMod P))]⟩ ∧
    ∀ e ∈ [((0 : Pt), (0 : ZMod P))],
      Nat.land ((fun _ : Pt => 0) e.1) ((⟨1, 1, 1, 1, 1⟩ : Parameters).W - 1) = 0 :=
  have hW : (⟨1, 1, 1, 1, 1⟩ : Parameters).W = 2 ^ 0 := by decide
  have hg : Table.generate (fun z : Pt => z) (fun _ : Pt => 0)
      (⟨1, 1, 1, 1, 1⟩ : Parameters) (fun _ => 0) =
      some ⟨[(1 : Pt)], [(1 : ZMod P)], [((0 : Pt), (0 : ZMod P))]⟩ := by decide
  ⟨hW, hg, C8_distinguished_keys hW hg⟩

/-- C9 (BL12 step-scalar generation): for every parameter set with
`secret_size ∈ [1, 64]` (and a nonzero `W`), `s_values_init` computes
`slog_size` exactly as the spec describes it, succeeds, and produces two
length-`R` vectors in which every step scalar lies in `[1, 2^slog_size]` as
an integer and every step point equals its scalar times `g`. -/
theorem C9_step_scalars (pr : Parameters) (rng : ℕ → ℕ)
    (h1 : 1 ≤ pr.secret_size) (h64 : pr.secret_size ≤ 64) (hW : 1 ≤ pr.W) :
    slog_size pr = slogSizeSpec pr ∧
    ∃ slog s, Table.s_values_init pr rng = some (slog, s) ∧
      slog.length = pr.R ∧ s.length = pr.R ∧
      ∀ h < pr.R, 1 ≤ (slog.getD h 0).val ∧
        (slog.getD h 0).val ≤ 2 ^ slog_size pr ∧
        s.getD h 0 = mulG (slog.getD h 0) := by
  refine ⟨slog_size_eq_spec pr hW,
    (List.range pr.R).map
      (fun h => ((rng h % 2 ^ slog_size pr : ℕ) : ZMod P) + 1),
    (List.range pr.R).map
      (fun h => mulG (((rng h % 2 ^ slog_size pr : ℕ) : ZMod P) + 1)),
    s_values_init_eq pr rng,
    by rw [List.length_map, List.length_range],
    by rw [List.length_map, List.length_range], ?_⟩
  intro h hh
  refine ⟨?_, ?_, ?_⟩
  · rw [getD_map_range _ _ hh]
    exact (slog_val_bounds pr (rng h)).1
  · rw [getD_map_range _ _ hh]
    exact (slog_val_bounds pr (rng h)).2
  · rw [getD_map_range _ _ hh, getD_map_range _ _ hh]

/-- Witness for C9 at `secret_size = 1`, `W = R = 1`, all-zero RNG. -/
theorem C9_step_scalars_witness :
    1 ≤ (⟨1, 1, 1, 1, 1⟩ : Parameters).secret_size ∧
    (⟨1, 1, 1, 1, 1⟩ : Parameters).secret_size ≤ 64 ∧
    1 ≤ (⟨1, 1, 1, 1, 1⟩ : Parameters).W ∧
    (slog_size ⟨1, 1, 1, 1, 1⟩ = slogSizeSpec ⟨1, 1, 1, 1, 1⟩ ∧
    ∃ slog s, Table.s_values_init ⟨1, 1, 1, 1, 1⟩ (fun _ => 0) = some (slog, s) ∧
      slog.length = (⟨1, 1, 1, 1, 1⟩ : Parameters).R ∧
      s.length = (⟨1, 1, 1, 1, 1⟩ : Parameters).R ∧
      ∀ h < (⟨1, 1, 1, 1, 1⟩ : Parameters).R, 1 ≤ (slog.getD h 0).val ∧
        (slog.getD h 0).val ≤ 2 ^ slog_size ⟨1, 1, 1, 1, 1⟩ ∧
        s.getD h 0 = mulG (slog.getD h 0)) :=
  ⟨by decide, by decide, by decide,
    C9_step_scalars ⟨1, 1, 1, 1, 1⟩ (fun _ => 0) (by decide) (by decide) (by decide)⟩

/-- C10 (implicit: `generate_random_scalar` never errs for `bits ≤ 64`): for
`0 ≤ bits ≤ 64` the constructed 32-byte buffer has at most its lowest 8
bytes nonzero, its little-endian value is `< 2^bits` (hence canonical), so
`from_canonical_bytes` succeeds and the resulting scalar's integer value is
that buffer value, strictly below `2^bits`; for `bits > 64` the function
returns an error before sampling. -/
theorem C10_random_scalar (bits : ℕ) (rb : ℕ → ℕ) :
    (bits ≤ 64 →
      (∀ i, 8 ≤ i → grsKeyByte bits rb i = 0) ∧
      grsValue bits rb < 2 ^ bits ∧
      generate_random_scalar bits rb =
        some ((grsValue bits rb : ℕ) : ZMod P) ∧
      ((grsValue bits rb : ℕ) : ZMod P).val = grsValue bits rb ∧
      ((grsValue bits rb : ℕ) : ZMod P).val < 2 ^ bits) ∧
    (64 < bits → generate_random_scalar bits rb = none) := by
  constructor
  · intro hb
    have hv := grsValue_lt bits rb hb
    have hvP : grsValue bits rb < P :=
      lt_trans (lt_of_lt_of_le hv (Nat.pow_le_pow_right (by norm_num) hb))
        two_pow_64_lt_P
    have hval : ((grsValue bits rb : ℕ) : ZMod P).val = grsValue bits rb :=
      ZMod.val_cast_of_lt hvP
    refine ⟨fun i hi => grsKeyByte_zero_of_ge bits rb (le_trans (by omega) hi),
      hv, ?_, hval, ?_⟩
    · unfold generate_random_scalar
      rw [if_neg (by omega), if_pos hvP]
    · rw [hval]
      exact hv
  · intro hb
    unfold generate_random_scalar
    rw [if_pos hb]

/-- Witness for C10 at `bits = 3` with the all-255 byte stream. -/
theorem C10_random_scalar_witness :
    (3 : ℕ) ≤ 64 ∧
    grsValue 3 (fun _ => 255) < 2 ^ 3 ∧
    generate_random_scalar 3 (fun _ => 255) =
      some ((grsValue 3 (fun _ => 255) : ℕ) : ZMod P) :=
  ⟨by decide, ((C10_random_scalar 3 (fun _ => 255)).1 (by decide)).2.1,
    ((C10_random_scalar 3 (fun _ => 255)).1 (by decide)).2.2.1⟩
